import Mathlib

/-!
Verification development for the `stats` engine of the qsv repository
(`src/cmd/stats.rs`): per-column type inference, streaming and
full-materialization accumulators, output formatting, and the chunk-merge
protocol.

Modelling conventions:
* a raw CSV field (a `&[u8]` in the source) is modelled as a `List Char`
  of its bytes (the source assumes valid UTF-8 and all inputs relevant to
  the claims are ASCII);
* Rust `i64` is modelled as `Int` with explicit clamping to the `i64`
  range where the source saturates;
* Rust `f64` is modelled as `ℚ` (exact arithmetic standing in for IEEE
  doubles; `mul_add` is exact in this model);
* fallible operations (string parses, the asserting merge of statistics
  selections) return `Option`;
* the external date parser (`qsv_dateparser::parse_with_preference`) is a
  parameter `dp : Bytes → Option (Bool × Int)` returning, on success,
  whether the parse is a pure date (RFC3339 time component `T00:00:00+00:00`)
  and its epoch-millisecond timestamp;
* helpers that live in external crates or in repository files outside
  `src/` (`stats` crate accumulators, `util::round_num`) are modelled from
  the specification and marked as such in their doc comments.
-/

namespace Qsv

-- The Batteries rational primitives are sealed; reopen them so concrete
-- records evaluate by `decide`/`rfl`.
unseal Rat.add Rat.mul Rat.sub Rat.inv

/-- Byte strings of the source, restricted to the ASCII fragment. -/
abbrev Bytes := List Char

/-! ### Integer and float parsing (Rust `str::parse`) -/

/-- Numeric value of a decimal digit character. -/
def digitVal (c : Char) : Nat := c.toNat - 48

/-- Parse a nonempty all-digit string to a `Nat`; `none` otherwise.
Models the digit portion of Rust's integer `FromStr`. -/
def parseDigits : Bytes → Option Nat
  | [] => none
  | l => if l.all Char.isDigit then some (l.foldl (fun a c => 10 * a + digitVal c) 0) else none

/-- Largest `i64` value. -/
def i64Max : Int := 9223372036854775807

/-- Smallest `i64` value. -/
def i64Min : Int := -9223372036854775808

/-- Split an optional leading sign off a numeric literal. -/
def splitSign : Bytes → Int × Bytes
  | '+' :: r => (1, r)
  | '-' :: r => (-1, r)
  | r => (1, r)

/-- Rust `str::parse::<i64>`: optional sign, one or more digits, value must
fit in the `i64` range. -/
def parseI64 (s : Bytes) : Option Int :=
  let (sign, rest) := splitSign s
  match parseDigits rest with
  | none => none
  | some n =>
    let v : Int := sign * n
    if i64Min ≤ v ∧ v ≤ i64Max then some v else none

/-- Split a byte string at the first occurrence of a separator character,
returning the part before it and, if present, the part after it. -/
def splitAtChar (sep : Char) : Bytes → Bytes × Option Bytes
  | [] => ([], none)
  | c :: r =>
    if c = sep then ([], some r)
    else
      let (a, b) := splitAtChar sep r
      (c :: a, b)

/-- Split a float literal at its exponent marker (`e` or `E`). -/
def splitExp (s : Bytes) : Bytes × Option Bytes :=
  match splitAtChar 'e' s with
  | (a, some b) =>
    match splitAtChar 'E' a with
    | (a2, some b2) => (a2, some (b2 ++ 'e' :: b))
    | (_, none) => (a, some b)
  | (a, none) => splitAtChar 'E' a

/-- Parse an exponent: optional sign and one or more digits. -/
def parseExp (s : Bytes) : Option Int :=
  let (sign, rest) := splitSign s
  match parseDigits rest with
  | none => none
  | some n => some (sign * n)

/-- Rust `str::parse::<f64>`, decimal fragment of its grammar
(`[sign] (digits | digits '.' digits? | '.' digits) [('e'|'E') [sign] digits]`),
with the value taken exactly in `ℚ`; the textual `inf`/`NaN` forms are not
modelled (no claim depends on them). -/
def parseF64 (s : Bytes) : Option ℚ :=
  let (sign, rest) := splitSign s
  let (mant, expPart) := splitExp rest
  let expVal : Option Int :=
    match expPart with
    | none => some 0
    | some e => parseExp e
  match expVal with
  | none => none
  | some ev =>
    let (ip, fp) := splitAtChar '.' mant
    match fp with
    | none =>
      match parseDigits ip with
      | none => none
      | some n => some ((sign : ℚ) * n * (10 : ℚ) ^ ev)
    | some f =>
      if ip.all Char.isDigit ∧ f.all Char.isDigit ∧ (ip ≠ [] ∨ f ≠ []) then
        let ipv : ℚ := ip.foldl (fun a c => 10 * a + digitVal c) 0
        let fpv : ℚ := (f.foldl (fun a c => 10 * a + digitVal c) 0 : ℚ) / (10 : ℚ) ^ f.length
        some ((sign : ℚ) * (ipv + fpv) * (10 : ℚ) ^ ev)
      else none

/-! ### Field types and type inference (`FieldType`) -/

/-- Inferred data type of a column (`FieldType` in the source).
`TNull` is the default, most specific type. -/
inductive FieldType
  | TNull
  | TString
  | TFloat
  | TInteger
  | TDate
  | TDateTime
deriving DecidableEq, Repr, Inhabited

open FieldType

/-- Display name of a field type (`impl fmt::Display for FieldType`). -/
def FieldType.display : FieldType → String
  | TNull => "NULL"
  | TString => "String"
  | TFloat => "Float"
  | TInteger => "Integer"
  | TDate => "Date"
  | TDateTime => "DateTime"

/-- A date parser: on success, whether the value is a pure date and its
epoch-millisecond timestamp.  Stands for the external
`qsv_dateparser::parse_with_preference` together with the RFC3339
time-of-day test done at the call site in `from_sample`. -/
abbrev DateParser := Bytes → Option (Bool × Int)

/-- Date parser used when `--infer-dates` is off or for concrete inputs
that contain no dates. -/
def noDate : DateParser := fun _ => none

/-- `FieldType::from_sample`: infer the type of one sample given the
column's current inferred type; also returns the timestamp for temporal
samples.  The source's early returns are modelled by the nested
`Option` match on the numeric block. -/
def FieldType.from_sample (dp : DateParser) (infer_dates : Bool) (sample : Bytes)
    (current_type : FieldType) : FieldType × Option Int :=
  if sample = [] then (TNull, none)
  else if current_type = TString then (TString, none)
  else
    let numeric : Option (FieldType × Option Int) :=
      if current_type = TFloat ∨ current_type = TInteger ∨ current_type = TNull then
        match parseI64 sample with
        | some int_val =>
          -- leading zero, its a string
          if sample.head? = some '0' ∧ int_val ≠ 0 then some (TString, none)
          else some (TInteger, none)
        | none =>
          if (parseF64 sample).isSome then some (TFloat, none) else none
      else none
    match numeric with
    | some r => r
    | none =>
      if infer_dates ∧ (current_type = TDate ∨ current_type = TDateTime ∨ current_type = TNull) then
        match dp sample with
        | some (is_date, ts_val) =>
          if is_date then (TDate, some ts_val) else (TDateTime, some ts_val)
        | none => (TString, none)
      else (TString, none)

/-- `impl Commute for FieldType`: the type lattice merge. -/
def FieldType.merge (a b : FieldType) : FieldType :=
  match a, b with
  | TString, TString => TString
  | TFloat, TFloat => TFloat
  | TInteger, TInteger => TInteger
  -- Null does not impact the type.
  | TNull, x => x
  | x, TNull => x
  -- Integers can degrade to floats.
  | TFloat, TInteger => TFloat
  | TInteger, TFloat => TFloat
  -- date data types
  | TDate, TDate => TDate
  | TDateTime, TDateTime => TDateTime
  | TDate, TDateTime => TDateTime
  | TDateTime, TDate => TDateTime
  -- anything else is a String
  | _, _ => TString

/-! ### Saturating `i64` arithmetic and `TypedSum` -/

/-- Rust `i64::saturating_add` on the `Int` model. -/
def satAdd (a b : Int) : Int :=
  if i64Max < a + b then i64Max
  else if a + b < i64Min then i64Min
  else a + b

/-- Saturating sum of a list of `i64` values, folded left like the running
accumulator in the source. -/
def satFold (l : List Int) : Int := l.foldl satAdd 0

/-! ### Rounding and number formatting -/

/-- Round a rational to the nearest integer, ties to even
("Midpoint Nearest Even" / banker's rounding). -/
def roundHalfEvenInt (q : ℚ) : Int :=
  let f : Int := ⌊q⌋
  let r : ℚ := q - f
  if r < 1 / 2 then f
  else if 1 / 2 < r then f + 1
  else if f % 2 = 0 then f else f + 1

/-- Render a scaled integer `n` (standing for the value `n / 10 ^ places`)
as a decimal string with exactly `places` fractional digits. -/
def fmtFixed (n : Int) (places : Nat) : String :=
  let ds := (Nat.repr n.natAbs).data
  let ds := List.replicate (places + 1 - ds.length) '0' ++ ds
  let ip := ds.take (ds.length - places)
  let fp := ds.drop (ds.length - places)
  (if n < 0 then "-" else "") ++ String.mk ip ++
    (if places = 0 then "" else "." ++ String.mk fp)

/-- Modelled from the spec: `util::round_num` (the `util` module is not part
of `src/`) — round a floating value to `places` decimal places with
banker's rounding and render it. -/
def round_num (q : ℚ) (places : Nat) : String :=
  fmtFixed (roundHalfEvenInt (q * (10 : ℚ) ^ places)) places

/-- Floor of the real square root of a nonnegative rational. -/
def ratSqrtFloor (t : ℚ) : Nat :=
  let c := Nat.sqrt ⌊t⌋.toNat
  if ((c : ℚ) + 1) ^ 2 ≤ t then c + 1 else c

/-- Round the real square root of a nonnegative rational to the nearest
integer, ties to even; `0` on negative input (unreachable for variances). -/
def roundSqrtHalfEven (t : ℚ) : Int :=
  if t ≤ 0 then 0
  else
    let m := ratSqrtFloor t
    let h : ℚ := (m : ℚ) + 1 / 2
    if t < h ^ 2 then m
    else if h ^ 2 < t then m + 1
    else if m % 2 = 0 then (m : Int) else (m : Int) + 1

/-- Exact rendering of `round_num (Real.sqrt v) places` for `v ≥ 0`:
scales inside the square root so the rounded result is computable in `ℚ`.
Used for the standard-deviation output of the online accumulator. -/
def roundSqrtNum (v : ℚ) (places : Nat) : String :=
  fmtFixed (roundSqrtHalfEven (v * ((10 : ℚ) ^ places) ^ 2)) places

/-- Number of factors `p` in `n`. -/
def factorCount (p : Nat) : Nat → Nat
  | 0 => 0
  | n + 1 =>
    if h : 2 ≤ p ∧ p ∣ n + 1 then
      have : (n + 1) / p < n + 1 :=
        Nat.div_lt_self (Nat.succ_pos n) h.1
      factorCount p ((n + 1) / p) + 1
    else 0

/-- Strip trailing `'0'` characters from a digit list. -/
def stripTrailingZeros (l : Bytes) : Bytes := (l.reverse.dropWhile (· = '0')).reverse

/-- Modelled from the spec: shortest-decimal rendering of an `f64` (the
`ryu` buffer of the source), restricted to this model's exact rationals:
a rational with a `2^a * 5^b` denominator is printed as its exact decimal
with trailing zeros stripped (at least one fractional digit, `ryu` style);
other rationals (unreachable from parsed samples) fall back to `num/den`. -/
def fmtF64 (q : ℚ) : String :=
  let a := factorCount 2 q.den
  let b := factorCount 5 q.den
  if q.den = 2 ^ a * 5 ^ b then
    let k := max a b
    let scaled : Int := q.num * (10 ^ k / (q.den : Int))
    let ds := (Nat.repr scaled.natAbs).data
    let ds := List.replicate (k + 1 - ds.length) '0' ++ ds
    let ip := ds.take (ds.length - k)
    let fp := stripTrailingZeros (ds.drop (ds.length - k))
    let fp := if fp = [] then ['0'] else fp
    (if scaled < 0 then "-" else "") ++ String.mk ip ++ "." ++ String.mk fp
  else toString q

/-- `TypedSum`: rolling sum; integers until a float is seen, floats after. -/
structure TypedSum where
  integer : Int := 0
  float : Option ℚ := none
deriving DecidableEq, Repr

/-- `TypedSum::add`.  The source's unchecked parses are modelled with
`Option.getD 0`; they are only reached on samples whose parse succeeds. -/
def TypedSum.add (ts : TypedSum) (typ : FieldType) (sample : Bytes) : TypedSum :=
  if sample = [] then ts
  else
    match typ with
    | TFloat =>
      let f : ℚ := (parseF64 sample).getD 0
      match ts.float with
      | none => { ts with float := some ((ts.integer : ℚ) + f) }
      | some g => { ts with float := some (g + f) }
    | TInteger =>
      match ts.float with
      | some g => { ts with float := some (g + (parseF64 sample).getD 0) }
      | none => { ts with integer := satAdd ts.integer ((parseI64 sample).getD 0) }
    | _ => ts

/-- `impl Commute for TypedSum`. -/
def TypedSum.merge (a b : TypedSum) : TypedSum :=
  match a.float, b.float with
  | some f1, some f2 => { a with float := some (f1 + f2) }
  | some f1, none => { a with float := some (f1 + (b.integer : ℚ)) }
  | none, some f2 => { a with float := some ((a.integer : ℚ) + f2) }
  | none, none => { a with integer := satAdd a.integer b.integer }

/-- Decimal rendering of an `i64` (the `itoa` buffer of the source). -/
def intToStr (n : Int) : String := toString n

/-- `TypedSum::show`. -/
def TypedSum.show (ts : TypedSum) (typ : FieldType) : Option String :=
  match typ with
  | TNull | TString | TDate | TDateTime => none
  | TInteger =>
    -- with saturating_add, a result equal to i64::MAX or i64::MIN
    -- signals overflow/underflow
    if ts.integer = i64Max then some "OVERFLOW"
    else if ts.integer = i64Min then some "UNDERFLOW"
    else some (intToStr ts.integer)
  | TFloat => some (fmtF64 (ts.float.getD 0))

/-! ### Min/max accumulators (`stats::MinMax`) and `TypedMinMax` -/

/-- Keep for each comparison function `ltb` the smaller of two values,
the current one winning ties (`if sample < min { replace }`). -/
def minB (ltb : α → α → Bool) (cur new : α) : α := if ltb new cur then new else cur

/-- Keep the larger of two values, the current one winning ties. -/
def maxB (ltb : α → α → Bool) (cur new : α) : α := if ltb cur new then new else cur

/-- Combine two optional values with a total combining function. -/
def optComb (f : α → α → α) : Option α → Option α → Option α
  | none, y => y
  | some a, none => some a
  | some a, some b => some (f a b)

/-- Modelled from the spec: the external `stats::MinMax<T>` accumulator,
reduced to the minimum and maximum actually consumed by this engine. -/
structure MinMax (α : Type) where
  min : Option α := none
  max : Option α := none
deriving DecidableEq, Repr

/-- Add a sample to a `MinMax` accumulator. -/
def MinMax.add (ltb : α → α → Bool) (mm : MinMax α) (x : α) : MinMax α :=
  { min := some (match mm.min with | none => x | some m => minB ltb m x),
    max := some (match mm.max with | none => x | some m => maxB ltb m x) }

/-- Merge two `MinMax` accumulators. -/
def MinMax.merge (ltb : α → α → Bool) (a b : MinMax α) : MinMax α :=
  { min := optComb (minB ltb) a.min b.min,
    max := optComb (maxB ltb) a.max b.max }

/-- Strict order on naturals as a Bool. -/
def ltNat (a b : Nat) : Bool := decide (a < b)

/-- Strict order on integers as a Bool. -/
def ltInt (a b : Int) : Bool := decide (a < b)

/-- Strict order on rationals as a Bool. -/
def ltQ (a b : ℚ) : Bool := decide (a < b)

/-- Lexicographic strict order on byte strings (Rust `Vec<u8>: Ord`). -/
def ltBytes : Bytes → Bytes → Bool
  | [], [] => false
  | [], _ :: _ => true
  | _ :: _, [] => false
  | a :: as, b :: bs => if a < b then true else if b < a then false else ltBytes as bs

/-- Truncating, saturating cast of this model's `f64` to `i64`
(Rust `as i64` on a float). -/
def ratToI64 (q : ℚ) : Int :=
  let t := Int.tdiv q.num q.den
  if t < i64Min then i64Min else if i64Max < t then i64Max else t

/-- `TypedMinMax`: min/max/range per type domain. -/
structure TypedMinMax where
  strings : MinMax Bytes := {}
  str_len : MinMax Nat := {}
  integers : MinMax Int := {}
  floats : MinMax ℚ := {}
  dates : MinMax Int := {}
deriving DecidableEq, Repr

/-- `TypedMinMax::add`.  The unchecked parses of the source are modelled
with `Option.getD 0`; they are only reached on samples of the right
domain. -/
def TypedMinMax.add (mm : TypedMinMax) (typ : FieldType) (sample : Bytes) : TypedMinMax :=
  let mm := { mm with str_len := mm.str_len.add ltNat sample.length }
  if sample = [] then mm
  else
    let mm := { mm with strings := mm.strings.add ltBytes sample }
    match typ with
    | TString | TNull => mm
    | TFloat =>
      let n : ℚ := (parseF64 sample).getD 0
      { mm with
        floats := mm.floats.add ltQ n,
        integers := mm.integers.add ltInt (ratToI64 n) }
    | TInteger =>
      let n : Int := (parseI64 sample).getD 0
      { mm with
        integers := mm.integers.add ltInt n,
        floats := mm.floats.add ltQ (n : ℚ) }
    | TDate | TDateTime =>
      let n : Int := (parseI64 sample).getD 0
      { mm with dates := mm.dates.add ltInt n }

/-! ### Timestamp rendering (`timestamp_ms_to_rfc3339`) -/

/-- Number of milliseconds per day (`MS_IN_DAY`). -/
def msInDay : ℚ := 86400000

/-- Pad a natural's decimal form with leading zeros to width `w`. -/
def padNum (n : Nat) (w : Nat) : String :=
  let s := (Nat.repr n).data
  String.mk (List.replicate (w - s.length) '0' ++ s)

/-- Proleptic-Gregorian civil date (year, month, day) from days since the
Unix epoch (the standard era-based algorithm used by `chrono`). -/
def civilFromDays (z0 : Int) : Int × Int × Int :=
  let z := z0 + 719468
  let era := Int.fdiv z 146097
  let doe := z - era * 146097
  let yoe := Int.fdiv (doe - Int.fdiv doe 1460 + Int.fdiv doe 36524 - Int.fdiv doe 146096) 365
  let y := yoe + era * 400
  let doy := doe - (365 * yoe + Int.fdiv yoe 4 - Int.fdiv yoe 100)
  let mp := Int.fdiv (5 * doy + 2) 153
  let d := doy - Int.fdiv (153 * mp + 2) 5 + 1
  let m := mp + (if mp < 10 then 3 else -9)
  (y + (if m ≤ 2 then 1 else 0), m, d)

/-- `timestamp_ms_to_rfc3339`: render an epoch-millisecond timestamp in
RFC3339 UTC form; for `TDate` only the date component is returned. -/
def timestampMsToRfc3339 (timestamp : Int) (typ : FieldType) : String :=
  let days := Int.fdiv timestamp 86400000
  let rem := (timestamp - days * 86400000).toNat
  let (y, m, d) := civilFromDays days
  let dateStr := padNum y.toNat 4 ++ "-" ++ padNum m.toNat 2 ++ "-" ++ padNum d.toNat 2
  if typ = TDate then dateStr
  else
    let secs := rem / 1000
    let msec := rem % 1000
    dateStr ++ "T" ++ padNum (secs / 3600) 2 ++ ":" ++ padNum (secs / 60 % 60) 2 ++ ":" ++
      padNum (secs % 60) 2 ++ (if msec = 0 then "" else "." ++ padNum msec 3) ++ "+00:00"

/-- `TypedMinMax::len_range`. -/
def TypedMinMax.len_range (mm : TypedMinMax) : Option (String × String) :=
  match mm.str_len.min, mm.str_len.max with
  | some mn, some mx => some (Nat.repr mn, Nat.repr mx)
  | _, _ => none

/-- `impl Commute for TypedMinMax`. -/
def TypedMinMax.merge (a b : TypedMinMax) : TypedMinMax :=
  { strings := a.strings.merge ltBytes b.strings,
    str_len := a.str_len.merge ltNat b.str_len,
    integers := a.integers.merge ltInt b.integers,
    floats := a.floats.merge ltQ b.floats,
    dates := a.dates.merge ltInt b.dates }

/-- `TypedMinMax::show`: min, max and range rendered for the column's
inferred type. -/
def TypedMinMax.show (mm : TypedMinMax) (typ : FieldType) (round_places : Nat) :
    Option (String × String × String) :=
  match typ with
  | TNull => none
  | TString =>
    match mm.strings.min, mm.strings.max with
    | some mn, some mx => some (String.mk mn, String.mk mx, "")
    | _, _ => none
  | TInteger =>
    match mm.integers.min, mm.integers.max with
    | some mn, some mx => some (intToStr mn, intToStr mx, intToStr (mx - mn))
    | _, _ => none
  | TFloat =>
    match mm.floats.min, mm.floats.max with
    | some mn, some mx => some (fmtF64 mn, fmtF64 mx, round_num (mx - mn) round_places)
    | _, _ => none
  | TDateTime | TDate =>
    match mm.dates.min, mm.dates.max with
    | some mn, some mx =>
      -- range is returned in days, not timestamp milliseconds
      some (timestampMsToRfc3339 mn typ, timestampMsToRfc3339 mx typ,
        round_num (((mx - mn : Int) : ℚ) / msInDay) (max round_places 5))
    | _, _ => none

/-! ### Online mean/variance accumulator (`stats::OnlineStats`) -/

/-- Modelled from the spec: the external `stats::OnlineStats` accumulator —
a Welford-style constant-memory streaming mean/variance over `f64`
samples, here over exact `ℚ`.  `q` is the running population variance. -/
structure OnlineStats where
  size : Nat := 0
  mean : ℚ := 0
  q : ℚ := 0
deriving DecidableEq, Repr

/-- Add one sample to the online accumulator (Welford update). -/
def OnlineStats.add (o : OnlineStats) (x : ℚ) : OnlineStats :=
  let oldmean := o.mean
  let prevq := o.q
  let size := o.size + 1
  let mean := oldmean + (x - oldmean) / (size : ℚ)
  { size := size, mean := mean,
    q := prevq + ((x - oldmean) * (x - mean) - prevq) / (size : ℚ) }

/-- Add a null observation: advances the denominator without changing the
sum, i.e. adds the sample `0`. -/
def OnlineStats.addNull (o : OnlineStats) : OnlineStats := o.add 0

/-- Population variance of the accumulated samples. -/
def OnlineStats.variance (o : OnlineStats) : ℚ := o.q

/-- Merge two online accumulators (the exact parallel
variance-combination formula). -/
def OnlineStats.merge (a b : OnlineStats) : OnlineStats :=
  let s1 : ℚ := a.size
  let s2 : ℚ := b.size
  let meandiffsq := (a.mean - b.mean) * (a.mean - b.mean)
  { size := a.size + b.size,
    mean := (s1 * a.mean + s2 * b.mean) / (s1 + s2),
    q := (s1 * a.q + s2 * b.q) / (s1 + s2) +
      s1 * s2 * meandiffsq / ((s1 + s2) * (s1 + s2)) }

/-! ### Full-materialization accumulators (`stats::Unsorted`) -/

/-- Weak order used to sort byte strings. -/
def leBytes (a b : Bytes) : Bool := !ltBytes b a

/-- Join byte strings with `','` (the `itertools` join of the source). -/
def joinComma : List Bytes → Bytes
  | [] => []
  | [x] => x
  | x :: xs => x ++ ',' :: joinComma xs

/-- Insert a value into a sorted list (structural insertion sort step). -/
def insertSorted (le : α → α → Bool) (x : α) : List α → List α
  | [] => [x]
  | y :: ys => if le x y then x :: y :: ys else y :: insertSorted le x ys

/-- Sort a list by a boolean weak order (insertion sort; stands for the
sorting the external crate performs before computing order statistics). -/
def sortBy (le : α → α → Bool) (l : List α) : List α := l.foldr (insertSorted le) []

/-- Sort a numeric multiset. -/
def sortQ (l : List ℚ) : List ℚ := sortBy (fun a b => decide (a ≤ b)) l

/-- Modelled from the spec: the median of a full numeric multiset (midpoint
of the two central order statistics for even sizes). -/
def medianOf (l : List ℚ) : Option ℚ :=
  if l = [] then none
  else
    let s := sortQ l
    let n := s.length
    if n % 2 = 1 then some (s.getD (n / 2) 0)
    else some ((s.getD (n / 2 - 1) 0 + s.getD (n / 2) 0) / 2)

/-- Modelled from the spec: median absolute deviation about `center`,
defaulting to the multiset's own median (`Unsorted::mad`). -/
def madOf (l : List ℚ) (center : Option ℚ) : Option ℚ :=
  if l = [] then none
  else
    let c := center.getD ((medianOf l).getD 0)
    medianOf (l.map (fun x => |x - c|))

/-- Modelled from the spec: a standard quantile estimator (method of
medians over the sorted multiset) returning `(q1, q2, q3)`; `none` below
two samples (`Unsorted::quartiles`). -/
def quartilesOf (l : List ℚ) : Option (ℚ × ℚ × ℚ) :=
  if l.length < 2 then none
  else
    let s := sortQ l
    let n := s.length
    match medianOf (s.take (n / 2)), medianOf s, medianOf (s.drop ((n + 1) / 2)) with
    | some q1, some q2, some q3 => some (q1, q2, q3)
    | _, _, _ => none

/-- Modelled from the spec: number of distinct values
(`Unsorted::cardinality`). -/
def cardinalityOf (l : List Bytes) : Nat := l.dedup.length

/-- Multiplicity of a value in a multiset. -/
def countVal (v : Bytes) (l : List Bytes) : Nat := (l.filter (fun x => x = v)).length

/-- Modelled from the spec: all values tied for the highest frequency, in
sorted order, with their count and that frequency; `(∅, 0, 0)` when no
value repeats (`Unsorted::modes`). -/
def modesOf (l : List Bytes) : List Bytes × Nat × Nat :=
  let d := (sortBy leBytes l).dedup
  let maxFreq := (d.map (fun v => countVal v l)).foldr max 0
  if maxFreq ≤ 1 then ([], 0, 0)
  else
    let ms := d.filter (fun v => countVal v l = maxFreq)
    (ms, ms.length, maxFreq)

/-- Modelled from the spec: the first ten values tied for the lowest
nonzero frequency, in sorted order, with the total count of such values
and that frequency (`Unsorted::antimodes`). -/
def antimodesOf (l : List Bytes) : List Bytes × Nat × Nat :=
  let d := (sortBy leBytes l).dedup
  match d with
  | [] => ([], 0, 0)
  | _ :: _ =>
    let minFreq := (d.map (fun v => countVal v l)).foldr min (l.length + 1)
    let ams := d.filter (fun v => countVal v l = minFreq)
    (ams.take 10, ams.length, minFreq)

/-! ### The per-column bundle (`Stats`) -/

/-- `WhichStats`: the statistics selection, fixed at configuration time. -/
structure WhichStats where
  include_nulls : Bool
  sum : Bool
  range : Bool
  dist : Bool
  cardinality : Bool
  median : Bool
  mad : Bool
  quartiles : Bool
  mode : Bool
  typesonly : Bool
deriving DecidableEq, Repr

/-- `impl Commute for WhichStats`: `assert_eq!(*self, other)` — merging
distinct selections panics; the panic is modelled as `none`. -/
def WhichStats.merge (a b : WhichStats) : Option WhichStats :=
  if a = b then some a else none

/-- `Stats`: the per-column accumulator bundle. -/
structure Stats where
  typ : FieldType
  sum : Option TypedSum
  minmax : Option TypedMinMax
  online : Option OnlineStats
  nullcount : Nat
  modes : Option (List Bytes)
  median : Option (List ℚ)
  mad : Option (List ℚ)
  quartiles : Option (List ℚ)
  which : WhichStats
deriving DecidableEq, Repr

/-- `Stats::new`: allocate exactly the accumulators the selection enables
(a standalone median multiset only when quartiles are off). -/
def Stats.new (which : WhichStats) : Stats :=
  { typ := default
    sum := if which.sum then some {} else none
    minmax := if which.range then some {} else none
    online := if which.dist then some {} else none
    nullcount := 0
    modes := if which.mode ∨ which.cardinality then some [] else none
    median := if which.quartiles then none else if which.median then some [] else none
    mad := if which.mad then some [] else none
    quartiles := if which.quartiles then some [] else none
    which := which }

/-- Append a numeric sample to an optional full-materialization multiset. -/
def pushQ (n : ℚ) : Option (List ℚ) → Option (List ℚ) :=
  Option.map (fun v => v ++ [n])

/-- `Stats::add`: classify the sample given the running type, merge the
type, and — unless types-only — feed every enabled accumulator, branching
on the merged (column) type. -/
def Stats.add (dp : DateParser) (st : Stats) (sample : Bytes) (infer_dates : Bool) : Stats :=
  let stv := FieldType.from_sample dp infer_dates sample st.typ
  let sample_type := stv.1
  let timestamp_val := stv.2
  let typ := st.typ.merge sample_type
  -- we're inferring typesonly, don't add samples to compute statistics
  if st.which.typesonly then { st with typ := typ }
  else
    let t := typ
    let sum := st.sum.map (fun v => v.add t sample)
    let minmax := st.minmax.map (fun v =>
      match timestamp_val with
      | some ts_val => v.add t (intToStr ts_val).data
      | none => v.add t sample)
    let modes := st.modes.map (fun v => v ++ [sample])
    let nullcount := if sample_type = TNull then st.nullcount + 1 else st.nullcount
    let onlineNull := if st.which.include_nulls then st.online.map OnlineStats.addNull else st.online
    match t with
    | TNull =>
      { st with
          typ := typ
          sum := sum
          minmax := minmax
          modes := modes
          nullcount := nullcount
          online := onlineNull }
    | TFloat | TInteger =>
      if sample_type = TNull then
        { st with
            typ := typ
            sum := sum
            minmax := minmax
            modes := modes
            nullcount := nullcount
            online := onlineNull }
      else
        let n : ℚ := (parseF64 sample).getD 0
        { st with
            typ := typ
            sum := sum
            minmax := minmax
            modes := modes
            nullcount := nullcount
            median := pushQ n st.median
            mad := pushQ n st.mad
            quartiles := pushQ n st.quartiles
            online := st.online.map (fun v => v.add n) }
    | TDateTime | TDate =>
      if sample_type = TNull then
        { st with
            typ := typ
            sum := sum
            minmax := minmax
            modes := modes
            nullcount := nullcount
            online := onlineNull }
      else
        match timestamp_val with
        | some ts_val =>
          -- date statistics are computed on millisecond timestamps
          let n : ℚ := (ts_val : ℚ)
          { st with
              typ := typ
              sum := sum
              minmax := minmax
              modes := modes
              nullcount := nullcount
              median := pushQ n st.median
              mad := pushQ n st.mad
              quartiles := pushQ n st.quartiles
              online := st.online.map (fun v => v.add n) }
        | none =>
          { st with
              typ := typ
              sum := sum
              minmax := minmax
              modes := modes
              nullcount := nullcount }
    | TString =>
      -- do nothing for String type
      { st with
          typ := typ
          sum := sum
          minmax := minmax
          modes := modes
          nullcount := nullcount }

/-! #### Output formatting (`Stats::to_record`), block by block -/

/-- The sum column of the output record. -/
def Stats.sumPiece (st : Stats) (round_places : Nat) : String :=
  match st.sum.bind (fun s => s.show st.typ) with
  | some sum =>
    if st.typ = TFloat then
      match parseF64 sum.data with
      | some f64_val => round_num f64_val round_places
      | none => "ERROR: Cannot convert " ++ sum ++ " to a float."
    else sum
  | none => ""

/-- The min/max/range columns of the output record. -/
def Stats.minmaxPieces (st : Stats) (round_places : Nat) : List String :=
  match st.minmax.bind (fun mm => mm.show st.typ round_places) with
  | some (a, b, c) => [a, b, c]
  | none => ["", "", ""]

/-- The min/max length columns (blank for temporal columns). -/
def Stats.lenPieces (st : Stats) : List String :=
  if st.typ = TDate ∨ st.typ = TDateTime then ["", ""]
  else
    match st.minmax.bind TypedMinMax.len_range with
    | some (a, b) => [a, b]
    | none => ["", ""]

/-- The mean/stddev/variance columns (temporal variance intentionally
blank; temporal stddev in days at millisecond precision). -/
def Stats.distPieces (st : Stats) (round_places : Nat) : List String :=
  if st.typ = TString ∨ st.typ = TNull then ["", "", ""]
  else
    match st.online with
    | some v =>
      if st.typ = TFloat ∨ st.typ = TInteger then
        [round_num v.mean round_places, roundSqrtNum v.variance round_places,
         round_num v.variance round_places]
      else
        [timestampMsToRfc3339 (ratToI64 v.mean) st.typ,
         roundSqrtNum (v.variance / msInDay ^ 2) (max round_places 5), ""]
    | none => ["", "", ""]

/-- The median value reused by the MAD computation (`existing_median`). -/
def Stats.existingMedian (st : Stats) : Option ℚ :=
  match st.median with
  | some l => if st.typ = TNull ∨ st.typ = TString then none else medianOf l
  | none => none

/-- The optional median column. -/
def Stats.medianPieces (st : Stats) (round_places : Nat) : List String :=
  match st.existingMedian with
  | some v =>
    if st.typ = TDateTime ∨ st.typ = TDate then [timestampMsToRfc3339 (ratToI64 v) st.typ]
    else [round_num v round_places]
  | none => if st.which.median then [""] else []

/-- The optional median-absolute-deviation column. -/
def Stats.madPieces (st : Stats) (round_places : Nat) : List String :=
  match (match st.mad with
         | some l =>
           if st.typ = TNull ∨ st.typ = TString then none else madOf l st.existingMedian
         | none => none) with
  | some v =>
    if st.typ = TDateTime ∨ st.typ = TDate then [round_num (v / msInDay) (max round_places 5)]
    else [round_num v round_places]
  | none => if st.which.mad then [""] else []

/-- Fused multiply-add (`f64::mul_add`), exact in the `ℚ` model. -/
def mulAdd (a b c : ℚ) : ℚ := a * b + c

/-- The optional quartile block: fences, quartiles, IQR and skewness. -/
def Stats.quartilePieces (st : Stats) (round_places : Nat) : List String :=
  match (match st.quartiles with
         | some l =>
           match st.typ with
           | TInteger | TFloat | TDate | TDateTime => quartilesOf l
           | _ => none
         | none => none) with
  | none =>
    if st.which.quartiles then ["", "", "", "", "", "", "", "", ""] else []
  | some (q1, q2, q3) =>
    let iqr := q3 - q1
    -- lower_outer_fence = q1 - (3.0 * iqr), lower_inner_fence = q1 - (1.5 * iqr)
    let lof := mulAdd 3 (-iqr) q1
    let lif := mulAdd (3 / 2) (-iqr) q1
    -- upper inner fence = q3 + (1.5 * iqr), upper_outer_fence = q3 + (3.0 * iqr)
    let uif := mulAdd (3 / 2) iqr q3
    let uof := mulAdd 3 iqr q3
    -- quantile skewness = ((q3 - q2) - (q2 - q1)) / iqr = (q3 - 2*q2 + q1) / iqr
    let skewness := (mulAdd 2 (-q2) q3 + q1) / iqr
    (if st.typ = TDateTime ∨ st.typ = TDate then
      [timestampMsToRfc3339 (ratToI64 lof) st.typ,
       timestampMsToRfc3339 (ratToI64 lif) st.typ,
       timestampMsToRfc3339 (ratToI64 q1) st.typ,
       timestampMsToRfc3339 (ratToI64 q2) st.typ,
       timestampMsToRfc3339 (ratToI64 q3) st.typ,
       round_num ((q3 - q1) / msInDay) (max round_places 5),
       timestampMsToRfc3339 (ratToI64 uif) st.typ,
       timestampMsToRfc3339 (ratToI64 uof) st.typ]
     else
      [round_num lof round_places, round_num lif round_places,
       round_num q1 round_places, round_num q2 round_places, round_num q3 round_places,
       round_num iqr round_places,
       round_num uif round_places, round_num uof round_places]) ++
    [round_num skewness round_places]

/-- The optional cardinality and mode/antimode block. -/
def Stats.modesCardPieces (st : Stats) : List String :=
  match st.modes with
  | none =>
    (if st.which.cardinality then [""] else []) ++
    (if st.which.mode then ["", "", "", ""] else [])
  | some l =>
    (if st.which.cardinality then [Nat.repr (cardinalityOf l)] else []) ++
    (if st.which.mode then
      let mr := modesOf l
      let modes_list := String.mk (joinComma mr.1)
      [modes_list, Nat.repr mr.2.1, Nat.repr mr.2.2] ++
      (if mr.2.2 = 0 then
        -- all the values are unique, so instead of returning everything, just say *ALL
        ["*ALL", "0", "1"]
       else
        let ar := antimodesOf l
        let vals := joinComma ar.1
        -- we only store the first 10 antimodes; prefix a preview marker beyond that
        let pre : Bytes := if 10 < ar.2.1 then "*PREVIEW: ".data else []
        let withNull : Bytes :=
          if vals.head? = some ',' then pre ++ "NULL".data ++ vals else pre ++ vals
        -- and truncate at 100 characters with an ellipsis
        let fin : Bytes :=
          if 100 < withNull.length then withNull.take 100 ++ "...".data else withNull
        [String.mk fin, Nat.repr ar.2.1, Nat.repr ar.2.2])
     else [])

/-- `Stats::to_record`: the per-column output record (without the leading
field name, which the caller prepends).  `record_count` models the
process-wide `RECORD_COUNT` used for sparsity (`1` when unset). -/
def Stats.to_record (st : Stats) (round_places : Nat) (record_count : Option Nat) : List String :=
  if st.which.typesonly then [st.typ.display]
  else
    st.typ.display ::
    st.sumPiece round_places ::
    (st.minmaxPieces round_places ++ st.lenPieces ++ st.distPieces round_places ++
     [Nat.repr st.nullcount,
      round_num ((st.nullcount : ℚ) / ((record_count.getD 1 : Nat) : ℚ)) round_places] ++
     st.medianPieces round_places ++ st.madPieces round_places ++
     st.quartilePieces round_places ++ st.modesCardPieces)

/-- `impl Commute for Stats`: field-wise merge of two bundles.  Note the
source does not merge the `mad` multiset.  The asserting merge of the
selections makes the whole merge `Option`-valued. -/
def Stats.merge (a b : Stats) : Option Stats :=
  match a.which.merge b.which with
  | none => none
  | some w =>
    some
      { typ := a.typ.merge b.typ
        sum := optComb TypedSum.merge a.sum b.sum
        minmax := optComb TypedMinMax.merge a.minmax b.minmax
        online := optComb OnlineStats.merge a.online b.online
        nullcount := a.nullcount + b.nullcount
        modes := optComb (· ++ ·) a.modes b.modes
        median := optComb (· ++ ·) a.median b.median
        mad := a.mad
        quartiles := optComb (· ++ ·) a.quartiles b.quartiles
        which := w }

/-- One column's sequential computation (`Args::compute` restricted to a
single selected column): fold `Stats::add` over the rows' fields. -/
def computeStats (dp : DateParser) (infer_dates : Bool) (which : WhichStats)
    (samples : List Bytes) : Stats :=
  samples.foldl (fun st s => st.add dp s infer_dates) (Stats.new which)

/-- The claim's merge table, written exactly as stated (for comparison
with `FieldType.merge`): String absorbs, Null is the identity, Integer
with Float gives Float, the three temporal cases, and every other
combination gives String. -/
def claimMergeTable (a b : FieldType) : FieldType :=
  if a = TString ∨ b = TString then TString
  else if a = TNull then b
  else if b = TNull then a
  else if (a = TInteger ∧ b = TFloat) ∨ (a = TFloat ∧ b = TInteger) then TFloat
  else if a = TDate ∧ b = TDate then TDate
  else if (a = TDate ∧ b = TDateTime) ∨ (a = TDateTime ∧ b = TDate) ∨
      (a = TDateTime ∧ b = TDateTime) then TDateTime
  else TString

/-- The claim's merge table extended with the two idempotent numeric cases
the claim's enumeration omits (`Integer` with `Integer` and `Float` with
`Float`). -/
def amendedMergeTable (a b : FieldType) : FieldType :=
  if a = TString ∨ b = TString then TString
  else if a = TNull then b
  else if b = TNull then a
  else if a = TInteger ∧ b = TInteger then TInteger
  else if a = TFloat ∧ b = TFloat then TFloat
  else if (a = TInteger ∧ b = TFloat) ∨ (a = TFloat ∧ b = TInteger) then TFloat
  else if a = TDate ∧ b = TDate then TDate
  else if (a = TDate ∧ b = TDateTime) ∨ (a = TDateTime ∧ b = TDate) ∨
      (a = TDateTime ∧ b = TDateTime) then TDateTime
  else TString

/-- The statistics selection corresponding to the default flag set of the
command (sum/range/distribution on, in-memory statistics off). -/
def wsDefault : WhichStats :=
  { include_nulls := false
    sum := true
    range := true
    dist := true
    cardinality := false
    median := false
    mad := false
    quartiles := false
    mode := false
    typesonly := false }

/-! ### Structural lemmas about `Stats.add` -/

/-- `parseI64` only succeeds on nonempty samples. -/
lemma parseI64_ne_nil {s : Bytes} {v : Int} (h : parseI64 s = some v) : s ≠ [] := by
  intro hs
  subst hs
  simp [parseI64, splitSign, parseDigits] at h

/-- `Stats.add` always sets the type to the lattice merge of the old type
with the sample's classification. -/
lemma Stats.add_typ (dp : DateParser) (st : Stats) (sample : Bytes) (infer_dates : Bool) :
    (st.add dp sample infer_dates).typ
      = st.typ.merge (FieldType.from_sample dp infer_dates sample st.typ).1 := by
  unfold Stats.add
  dsimp only
  split
  · rfl
  · split <;> first
      | rfl
      | (split
         · rfl
         · first
            | rfl
            | (split <;> rfl))

/-- `Stats.add` never changes the statistics selection. -/
lemma Stats.add_which (dp : DateParser) (st : Stats) (sample : Bytes) (infer_dates : Bool) :
    (st.add dp sample infer_dates).which = st.which := by
  unfold Stats.add
  dsimp only
  split
  · rfl
  · split <;> first
      | rfl
      | (split
         · rfl
         · first
            | rfl
            | (split <;> rfl))

/-- A nonempty sample never classifies as `TNull`. -/
lemma from_sample_fst_ne_null (dp : DateParser) (infer_dates : Bool) (sample : Bytes)
    (current_type : FieldType) (hs : sample ≠ []) :
    (FieldType.from_sample dp infer_dates sample current_type).1 ≠ TNull := by
  unfold FieldType.from_sample
  rw [if_neg hs]
  split
  · simp
  · dsimp only
    split
    · rename_i r heq
      split at heq
      · split at heq
        · split at heq <;> (injection heq with h2; subst h2; simp)
        · split at heq
          · injection heq with h2
            subst h2
            simp
          · exact absurd heq (by simp)
      · exact absurd heq (by simp)
    · split
      · split
        · split <;> simp
        · simp
      · simp

/-- A sample classifies as `TNull` exactly when it is empty. -/
lemma from_sample_null_iff (dp : DateParser) (infer_dates : Bool) (sample : Bytes)
    (current_type : FieldType) :
    (FieldType.from_sample dp infer_dates sample current_type).1 = TNull ↔ sample = [] := by
  constructor
  · intro h
    by_contra hs
    exact from_sample_fst_ne_null dp infer_dates sample current_type hs h
  · intro h
    subst h
    rfl

/-- Without types-only, `Stats.add` counts exactly the empty samples. -/
lemma Stats.add_nullcount (dp : DateParser) (st : Stats) (sample : Bytes) (infer_dates : Bool)
    (h : st.which.typesonly = false) :
    (st.add dp sample infer_dates).nullcount
      = st.nullcount + (if sample = [] then 1 else 0) := by
  have hn : ((FieldType.from_sample dp infer_dates sample st.typ).1 = TNull)
      = (sample = []) := by
    simp [from_sample_null_iff]
  unfold Stats.add
  dsimp only
  rw [if_neg (by simp [h])]
  repeat' split
  all_goals simp_all

/-! ### C4 — the type-lattice merge table -/

/-- C4 counterexample: the claim's table, taken literally, sends the
unlisted combination `Integer` with `Integer` to its catch-all `String`,
but `FieldType::merge` keeps it at `Integer`. -/
theorem merge_table_integer_integer_gap :
    FieldType.merge TInteger TInteger = TInteger ∧
      claimMergeTable TInteger TInteger = TString ∧ TInteger ≠ TString := by
  refine ⟨rfl, rfl, by decide⟩

/-- C4 (amended): `FieldType::merge` computes exactly the claim's table
extended with the idempotent cases `Integer∧Integer → Integer` and
`Float∧Float → Float`, and the merge is commutative. -/
theorem merge_matches_amended_table :
    ∀ a b : FieldType,
      FieldType.merge a b = amendedMergeTable a b ∧
        FieldType.merge a b = FieldType.merge b a := by
  intro a b
  cases a <;> cases b <;> exact ⟨rfl, rfl⟩

/-! ### C9 — fail-fast on mismatched selections -/

/-- C9: merging two bundles succeeds exactly when their statistics
selections are identical; `WhichStats::merge`'s assertion (modelled as
`none`) aborts the merge otherwise rather than producing a result. -/
theorem merge_requires_identical_selections (a b : Stats) :
    ((Stats.merge a b).isSome = true ↔ a.which = b.which) ∧
      ((WhichStats.merge a.which b.which).isSome = true ↔ a.which = b.which) := by
  unfold Stats.merge WhichStats.merge
  by_cases h : a.which = b.which <;> simp [h]

/-! ### C1 — String is absorbing for a column's inferred type -/

/-- C1: once a column's running type is `String`, any further
`Stats::add` (with any sample, empty or not) leaves it at `String`, and
`from_sample` short-circuits to `String` without re-inspection on every
nonempty sample. -/
theorem string_column_stays_string (dp : DateParser) (infer_dates : Bool) (st : Stats)
    (sample : Bytes) (h : st.typ = TString) :
    (st.add dp sample infer_dates).typ = TString ∧
      (sample ≠ [] →
        FieldType.from_sample dp infer_dates sample TString = (TString, none)) := by
  constructor
  · rw [Stats.add_typ, h]
    unfold FieldType.from_sample
    split
    · rfl
    · rfl
  · intro hs
    unfold FieldType.from_sample
    rw [if_neg hs]
    rfl

/-- C1 witness: a concrete `String`-typed bundle stays `String` on the
sample `1` (which on its own would classify as `Integer`). -/
theorem string_column_stays_string_witness :
    ({ Stats.new wsDefault with typ := TString } : Stats).typ = TString ∧
      ((({ Stats.new wsDefault with typ := TString } : Stats).add noDate
          "1".data false).typ = TString ∧
        ("1".data ≠ [] →
          FieldType.from_sample noDate false "1".data TString = (TString, none))) :=
  ⟨rfl, string_column_stays_string noDate false _ _ rfl⟩

/-! ### C5 — the leading-zero rule of numeric classification -/

/-- C5: while the running type is `Null`, `Integer` or `Float`: a sample
parsing as a nonzero `i64` with a leading `'0'` classifies as `String`;
any other successful `i64` parse classifies as `Integer`; a failed `i64`
parse with a successful `f64` parse classifies as `Float`; and a column
fed `"007", "042"` ends up typed `String`. -/
theorem leading_zero_classification (dp : DateParser) (infer_dates : Bool)
    (current_type : FieldType) (sample : Bytes)
    (hc : current_type = TNull ∨ current_type = TInteger ∨ current_type = TFloat) :
    (∀ v : Int, parseI64 sample = some v → sample.head? = some '0' → v ≠ 0 →
      FieldType.from_sample dp infer_dates sample current_type = (TString, none)) ∧
    (∀ v : Int, parseI64 sample = some v → ¬(sample.head? = some '0' ∧ v ≠ 0) →
      FieldType.from_sample dp infer_dates sample current_type = (TInteger, none)) ∧
    (parseI64 sample = none → (parseF64 sample).isSome = true →
      FieldType.from_sample dp infer_dates sample current_type = (TFloat, none)) ∧
    (computeStats dp infer_dates wsDefault ["007".data, "042".data]).typ = TString := by
  refine ⟨?_, ?_, ?_, ?_⟩
  · intro v hp h0 hv
    have hs := parseI64_ne_nil hp
    unfold FieldType.from_sample
    rw [if_neg hs]
    rcases hc with h | h | h <;> subst h <;> simp [hp, h0, hv]
  · intro v hp hnot
    have hs := parseI64_ne_nil hp
    unfold FieldType.from_sample
    rw [if_neg hs]
    rcases hc with h | h | h <;> subst h <;> simp [hp, hnot]
  · intro hp hf
    by_cases hs : sample = []
    · subst hs
      simp [parseF64, splitSign, splitExp, splitAtChar, parseDigits] at hf
    · unfold FieldType.from_sample
      rw [if_neg hs]
      rcases hc with h | h | h <;> subst h <;> simp [hp, hf]
  · have h1 : computeStats dp infer_dates wsDefault ["007".data, "042".data]
        = ((Stats.new wsDefault).add dp "007".data infer_dates).add dp "042".data
            infer_dates := rfl
    rw [h1, Stats.add_typ, Stats.add_typ]
    rfl

/-- C5 witness: the concrete consequences at `"007"` (leading zero),
`"7"` (plain integer) and `"2.5"` (float), from a `Null` running type. -/
theorem leading_zero_classification_witness :
    FieldType.from_sample noDate false "007".data TNull = (TString, none) ∧
      FieldType.from_sample noDate false "7".data TNull = (TInteger, none) ∧
      FieldType.from_sample noDate false "2.5".data TNull = (TFloat, none) ∧
      (computeStats noDate false wsDefault ["007".data, "042".data]).typ = TString :=
  ⟨(leading_zero_classification noDate false TNull "007".data (Or.inl rfl)).1 7
      (by decide) (by decide) (by decide),
    (leading_zero_classification noDate false TNull "7".data (Or.inl rfl)).2.1 7
      (by decide) (by decide),
    (leading_zero_classification noDate false TNull "2.5".data (Or.inl rfl)).2.2.1
      (by decide) (by decide),
    (leading_zero_classification noDate false TNull "x".data (Or.inl rfl)).2.2.2⟩

/-! ### C6 — the sparsity law -/

/-- Number of empty (null) samples in a column. -/
def countEmpty (l : List Bytes) : Nat := (l.filter (fun s => s = [])).length

/-- Folding `Stats.add` never changes the selection. -/
lemma foldAdd_which (dp : DateParser) (infer_dates : Bool) (l : List Bytes) :
    ∀ st : Stats, (l.foldl (fun st s => st.add dp s infer_dates) st).which = st.which := by
  induction l with
  | nil => intro st; rfl
  | cons x xs ih =>
    intro st
    rw [List.foldl_cons, ih, Stats.add_which]

/-- Without types-only, the null counter counts exactly the empty samples. -/
lemma foldAdd_nullcount (dp : DateParser) (infer_dates : Bool) (l : List Bytes) :
    ∀ st : Stats, st.which.typesonly = false →
      (l.foldl (fun st s => st.add dp s infer_dates) st).nullcount
        = st.nullcount + countEmpty l := by
  induction l with
  | nil => intro st _; simp [countEmpty]
  | cons x xs ih =>
    intro st h
    rw [List.foldl_cons, ih _ (by rw [Stats.add_which]; exact h),
      Stats.add_nullcount dp st x infer_dates h]
    by_cases hx : x = [] <;> simp [countEmpty, List.filter_cons, hx] <;> omega

/-- The min/max/range block always has three entries. -/
lemma length_minmaxPieces (st : Stats) (r : Nat) : (st.minmaxPieces r).length = 3 := by
  unfold Stats.minmaxPieces
  split <;> rfl

/-- The length block always has two entries. -/
lemma length_lenPieces (st : Stats) : st.lenPieces.length = 2 := by
  unfold Stats.lenPieces
  split
  · rfl
  · split <;> rfl

/-- The mean/stddev/variance block always has three entries. -/
lemma length_distPieces (st : Stats) (r : Nat) : (st.distPieces r).length = 3 := by
  unfold Stats.distPieces
  split
  · rfl
  · split
    · split <;> rfl
    · rfl

/-- In a non-types-only record, index 11 is the sparsity column. -/
lemma to_record_get_eleven (st : Stats) (r : Nat) (rc : Option Nat)
    (h : st.which.typesonly = false) :
    (st.to_record r rc).get? 11
      = some (round_num ((st.nullcount : ℚ) / ((rc.getD 1 : Nat) : ℚ)) r) := by
  unfold Stats.to_record
  rw [if_neg (by simp [h])]
  obtain ⟨a1, a2, a3, hA⟩ := List.length_eq_three.mp (length_minmaxPieces st r)
  obtain ⟨b1, b2, hB⟩ := List.length_eq_two.mp (length_lenPieces st)
  obtain ⟨c1, c2, c3, hC⟩ := List.length_eq_three.mp (length_distPieces st r)
  rw [hA, hB, hC]
  rfl

/-- In a non-types-only record, index 5 is the min_length column. -/
lemma to_record_get_five (st : Stats) (r : Nat) (rc : Option Nat)
    (h : st.which.typesonly = false) :
    (st.to_record r rc).get? 5 = st.lenPieces.get? 0 := by
  unfold Stats.to_record
  rw [if_neg (by simp [h])]
  obtain ⟨a1, a2, a3, hA⟩ := List.length_eq_three.mp (length_minmaxPieces st r)
  obtain ⟨b1, b2, hB⟩ := List.length_eq_two.mp (length_lenPieces st)
  rw [hA, hB]
  rfl

/-- C6: the sparsity column equals the null count divided by the total
record count, rounded as configured, for either value of the
include-nulls flag (which only affects the mean/stddev population). -/
theorem sparsity_formula (dp : DateParser) (infer_dates : Bool) (ws : WhichStats) (b : Bool)
    (samples : List Bytes) (rc : Option Nat) (r : Nat)
    (h : ws.typesonly = false) :
    (computeStats dp infer_dates { ws with include_nulls := b } samples).nullcount
        = countEmpty samples ∧
      ((computeStats dp infer_dates { ws with include_nulls := b } samples).to_record r rc).get? 11
        = some (round_num ((countEmpty samples : ℚ) / ((rc.getD 1 : Nat) : ℚ)) r) := by
  have hw : (Stats.new { ws with include_nulls := b }).which.typesonly = false := by
    simp [Stats.new, h]
  have hn : (computeStats dp infer_dates { ws with include_nulls := b } samples).nullcount
      = countEmpty samples := by
    unfold computeStats
    rw [foldAdd_nullcount dp infer_dates samples _ hw]
    simp [Stats.new]
  refine ⟨hn, ?_⟩
  rw [to_record_get_eleven _ _ _ (by unfold computeStats; rw [foldAdd_which]; exact hw), hn]

/-- C6 witness: one empty sample out of two rows gives sparsity `0.5000`,
with or without include-nulls. -/
theorem sparsity_formula_witness :
    wsDefault.typesonly = false ∧
      ((computeStats noDate false { wsDefault with include_nulls := false }
          ["a".data, []]).to_record 4 (some 2)).get? 11 = some "0.5000" ∧
      ((computeStats noDate false { wsDefault with include_nulls := true }
          ["a".data, []]).to_record 4 (some 2)).get? 11 = some "0.5000" := by
  refine ⟨rfl, ?_, ?_⟩
  · rw [(sparsity_formula noDate false wsDefault false ["a".data, []] (some 2) 4 rfl).2]
    decide
  · rw [(sparsity_formula noDate false wsDefault true ["a".data, []] (some 2) 4 rfl).2]
    decide

/-! ### C10 — an empty sample forces min_length 0 -/

/-- Adding any sample keeps the length tracker's minimum at `0` and its
maximum present (every `TypedMinMax::add` records the sample length before
any early return). -/
lemma typedMinMax_add_keeps_zero_min (mm : TypedMinMax) (t : FieldType) (x : Bytes)
    (h : mm.str_len.min = some 0) :
    (mm.add t x).str_len.min = some 0 ∧ (mm.add t x).str_len.max.isSome = true := by
  have hs : (mm.add t x).str_len = mm.str_len.add ltNat x.length := by
    unfold TypedMinMax.add
    repeat' split
    all_goals rfl
  rw [hs]
  unfold MinMax.add
  refine ⟨?_, rfl⟩
  rw [h]
  simp [minB, ltNat]

/-- Adding an empty sample sets the length tracker's minimum to `0`. -/
lemma typedMinMax_add_empty_zero_min (mm : TypedMinMax) (t : FieldType) :
    (mm.add t []).str_len.min = some 0 ∧ (mm.add t []).str_len.max.isSome = true := by
  have hs : (mm.add t []).str_len = mm.str_len.add ltNat 0 := by
    unfold TypedMinMax.add
    repeat' split
    all_goals rfl
  rw [hs]
  unfold MinMax.add
  refine ⟨?_, rfl⟩
  rcases mm.str_len.min with _ | m
  · rfl
  · simp [minB, ltNat]

/-- `Stats.add` leaves the min/max accumulator's presence unchanged. -/
lemma Stats.add_minmax_isSome (dp : DateParser) (st : Stats) (s : Bytes) (i : Bool) :
    (st.add dp s i).minmax.isSome = st.minmax.isSome := by
  unfold Stats.add
  dsimp only
  repeat' split
  all_goals simp

/-- Outside types-only mode, `Stats.add` maps the min/max accumulator
through one `TypedMinMax::add` with some type and some recorded bytes. -/
lemma Stats.add_minmax_shape (dp : DateParser) (st : Stats) (s : Bytes) (i : Bool)
    (h : st.which.typesonly = false) :
    ∃ (t : FieldType) (x : Bytes),
      (st.add dp s i).minmax = st.minmax.map (fun v => v.add t x) := by
  unfold Stats.add
  dsimp only
  rw [if_neg (by simp [h])]
  rcases h2 : (FieldType.from_sample dp i s st.typ).2 with _ | ts <;>
    simp only [h2] <;> repeat' split
  all_goals exact ⟨_, _, rfl⟩

/-- Outside types-only mode, adding an empty sample records a zero
length. -/
lemma Stats.add_empty_zero_min (dp : DateParser) (st : Stats) (i : Bool)
    (h : st.which.typesonly = false) :
    ∃ t : FieldType, (st.add dp [] i).minmax = st.minmax.map (fun v => v.add t []) := by
  unfold Stats.add
  dsimp only
  rw [if_neg (by simp [h])]
  have h2 : (FieldType.from_sample dp i [] st.typ).2 = none := rfl
  simp only [h2]
  repeat' split
  all_goals exact ⟨_, rfl⟩

/-- The column state has a present min/max accumulator whose length
tracker has minimum `0` and a present maximum. -/
def hasZeroMinLen (st : Stats) : Prop :=
  ∃ M : TypedMinMax, st.minmax = some M ∧ M.str_len.min = some 0 ∧
    M.str_len.max.isSome = true

/-- `hasZeroMinLen` is preserved by any further sample. -/
lemma Stats.add_keeps_zero_min (dp : DateParser) (st : Stats) (s : Bytes) (i : Bool)
    (h : st.which.typesonly = false) (hz : hasZeroMinLen st) :
    hasZeroMinLen (st.add dp s i) := by
  obtain ⟨M, hM, hmin, hmax⟩ := hz
  obtain ⟨t, x, hx⟩ := Stats.add_minmax_shape dp st s i h
  obtain ⟨hmin2, hmax2⟩ := typedMinMax_add_keeps_zero_min M t x hmin
  exact ⟨M.add t x, by rw [hx, hM]; rfl, hmin2, hmax2⟩

/-- `hasZeroMinLen` is preserved by folding any further samples. -/
lemma foldAdd_keeps_zero_min (dp : DateParser) (i : Bool) (l : List Bytes) :
    ∀ st : Stats, st.which.typesonly = false → hasZeroMinLen st →
      hasZeroMinLen (l.foldl (fun st s => st.add dp s i) st) := by
  induction l with
  | nil => intro st _ hz; exact hz
  | cons x xs ih =>
    intro st h hz
    exact ih _ (by rw [Stats.add_which]; exact h) (Stats.add_keeps_zero_min dp st x i h hz)

/-- C10: with range statistics enabled, a non-temporal column containing
an empty (null) sample reports `0` in the min_length output field. -/
theorem null_sample_zero_min_length (dp : DateParser) (infer_dates : Bool) (ws : WhichStats)
    (samples : List Bytes) (r : Nat) (rc : Option Nat)
    (h1 : ws.range = true) (h2 : ws.typesonly = false) (h3 : [] ∈ samples)
    (h4 : (computeStats dp infer_dates ws samples).typ ≠ TDate)
    (h5 : (computeStats dp infer_dates ws samples).typ ≠ TDateTime) :
    ((computeStats dp infer_dates ws samples).to_record r rc).get? 5 = some "0" := by
  obtain ⟨l1, l2, hsplit⟩ := List.append_of_mem h3
  set F := fun (st : Stats) (s : Bytes) => st.add dp s infer_dates with hF
  have hwhich : ∀ (l : List Bytes) (st : Stats), (l.foldl F st).which = st.which :=
    fun l st => foldAdd_which dp infer_dates l st
  have hw1 : ((l1.foldl F (Stats.new ws)).which).typesonly = false := by
    rw [hwhich]
    simpa [Stats.new] using h2
  have hsome : (l1.foldl F (Stats.new ws)).minmax.isSome = true := by
    have : ∀ (l : List Bytes) (st : Stats), (l.foldl F st).minmax.isSome = st.minmax.isSome := by
      intro l
      induction l with
      | nil => intro st; rfl
      | cons x xs ih => intro st; rw [List.foldl_cons, ih, Stats.add_minmax_isSome]
    rw [this]
    simp [Stats.new, h1]
  have hz : hasZeroMinLen (F (l1.foldl F (Stats.new ws)) []) := by
    obtain ⟨M, hM⟩ := Option.isSome_iff_exists.mp hsome
    obtain ⟨t, hx⟩ := Stats.add_empty_zero_min dp (l1.foldl F (Stats.new ws)) infer_dates hw1
    obtain ⟨hmin, hmax⟩ := typedMinMax_add_empty_zero_min M t
    exact ⟨M.add t [], by rw [hx, hM]; rfl, hmin, hmax⟩
  have hzfin : hasZeroMinLen (computeStats dp infer_dates ws samples) := by
    rw [show computeStats dp infer_dates ws samples
        = l2.foldl F (F (l1.foldl F (Stats.new ws)) []) by
      rw [hsplit]
      unfold computeStats
      rw [← hF, List.foldl_append, List.foldl_cons]]
    refine foldAdd_keeps_zero_min dp infer_dates l2 _ ?_ hz
    rw [Stats.add_which, hwhich]
    simpa [Stats.new] using h2
  have hwfin : (computeStats dp infer_dates ws samples).which.typesonly = false := by
    unfold computeStats
    rw [foldAdd_which]
    simpa [Stats.new] using h2
  rw [to_record_get_five _ _ _ hwfin]
  obtain ⟨M, hM, hmin, hmax⟩ := hzfin
  obtain ⟨mx, hmx⟩ := Option.isSome_iff_exists.mp hmax
  unfold Stats.lenPieces
  rw [if_neg (by simp [h4, h5]), hM]
  simp only [Option.some_bind]
  unfold TypedMinMax.len_range
  rw [hmin, hmx]
  rfl

/-- C10 witness: the column `["a", ""]` (type `String`) reports
min_length `0`. -/
theorem null_sample_zero_min_length_witness :
    wsDefault.range = true ∧ ([] : Bytes) ∈ ["a".data, ([] : Bytes)] ∧
      ((computeStats noDate false wsDefault ["a".data, []]).to_record 4 (some 2)).get? 5
        = some "0" :=
  ⟨rfl, by decide,
    null_sample_zero_min_length noDate false wsDefault ["a".data, []] 4 (some 2) rfl rfl
      (by decide) (by decide) (by decide)⟩

/-! ### C8 — all-distinct columns report the `*ALL` antimode sentinel -/

/-- A value absent from a multiset has multiplicity zero. -/
lemma countVal_eq_zero_of_not_mem {v : Bytes} {l : List Bytes} (h : v ∉ l) :
    countVal v l = 0 := by
  induction l with
  | nil => rfl
  | cons x xs ih =>
    have hx : ¬x = v := fun hc => h (by simp [hc])
    have hxs : v ∉ xs := fun hc => h (by simp [hc])
    have hrec := ih hxs
    unfold countVal at hrec ⊢
    rw [List.filter_cons]
    simp [hx, hrec]

/-- In a duplicate-free multiset every multiplicity is at most one. -/
lemma countVal_le_one_of_nodup {l : List Bytes} (h : l.Nodup) (v : Bytes) :
    countVal v l ≤ 1 := by
  induction l with
  | nil => simp [countVal]
  | cons x xs ih =>
    have hrec := ih (List.nodup_cons.mp h).2
    unfold countVal at hrec ⊢
    rw [List.filter_cons]
    by_cases hx : x = v
    · subst hx
      have h0 : countVal x xs = 0 :=
        countVal_eq_zero_of_not_mem (List.nodup_cons.mp h).1
      unfold countVal at h0
      simp [h0]
    · simp only [hx, decide_eq_true_eq, if_false]
      simpa using hrec

/-- On a duplicate-free multiset the mode computation reports zero
occurrences. -/
lemma modesOf_nodup (l : List Bytes) (h : l.Nodup) : modesOf l = ([], 0, 0) := by
  unfold modesOf
  rw [if_pos]
  have hle : ∀ x ∈ (sortBy leBytes l).dedup.map (fun v => countVal v l), x ≤ 1 := by
    intro x hx
    obtain ⟨v, _, hv⟩ := List.mem_map.mp hx
    rw [← hv]
    exact countVal_le_one_of_nodup h v
  generalize (sortBy leBytes l).dedup.map (fun v => countVal v l) = fs at hle
  induction fs with
  | nil => simp
  | cons x xs ih =>
    rw [List.foldr_cons]
    have h1 := hle x (by simp)
    have h2 := ih (fun y hy => hle y (by simp [hy]))
    omega

/-- C8: with mode statistics on, a column whose multiset is duplicate-free
formats the antimode triple as the sentinel `*ALL`, `0`, `1` (after the
empty mode list and its zero counts), and the output record ends with
exactly that block. -/
theorem all_unique_antimode_sentinel (st : Stats) (r : Nat) (rc : Option Nat) (l : List Bytes)
    (h1 : st.which.typesonly = false) (h2 : st.which.mode = true)
    (h3 : st.modes = some l) (h4 : l.Nodup) :
    st.modesCardPieces
        = (if st.which.cardinality = true then [Nat.repr (cardinalityOf l)] else [])
          ++ ["", "0", "0", "*ALL", "0", "1"] ∧
      st.to_record r rc
        = (st.typ.display :: st.sumPiece r ::
            (st.minmaxPieces r ++ st.lenPieces ++ st.distPieces r ++
             [Nat.repr st.nullcount,
              round_num ((st.nullcount : ℚ) / ((rc.getD 1 : Nat) : ℚ)) r] ++
             st.medianPieces r ++ st.madPieces r ++ st.quartilePieces r))
          ++ st.modesCardPieces := by
  constructor
  · unfold Stats.modesCardPieces
    rw [h3]
    dsimp only
    rw [modesOf_nodup l h4, if_pos h2]
    rfl
  · unfold Stats.to_record
    rw [if_neg (by simp [h1])]
    simp [List.append_assoc]

/-- C8 witness: three distinct values produce the `*ALL` sentinel block. -/
theorem all_unique_antimode_sentinel_witness :
    (["a".data, "b".data, "c".data] : List Bytes).Nodup ∧
      (computeStats noDate false { wsDefault with mode := true }
          ["a".data, "b".data, "c".data]).modesCardPieces
        = ["", "0", "0", "*ALL", "0", "1"] := by
  refine ⟨by decide, ?_⟩
  have h := (all_unique_antimode_sentinel
      (computeStats noDate false { wsDefault with mode := true }
        ["a".data, "b".data, "c".data])
      4 (some 3) ["a".data, "b".data, "c".data] rfl rfl rfl (by decide)).1
  rw [h]
  rfl

/-! ### C7 — quartile-derived fences, IQR and skewness -/

/-- C7: on a non-temporal numeric column whose quartile computation
returns `(q1, q2, q3)`, the quartile block of the formatted record is
exactly the rounded values of `q1 - 3·iqr`, `q1 - 1.5·iqr`, `q1`, `q2`,
`q3`, `iqr = q3 - q1`, `q3 + 1.5·iqr`, `q3 + 3·iqr` and
`skewness = ((q3 - q2) - (q2 - q1)) / iqr`, and the record contains that
block between the MAD and mode blocks. -/
theorem quartile_derived_identities (st : Stats) (r : Nat) (rc : Option Nat) (l : List ℚ)
    (q1 q2 q3 : ℚ)
    (h1 : st.which.typesonly = false)
    (h2 : st.typ = TInteger ∨ st.typ = TFloat)
    (h3 : st.quartiles = some l)
    (h4 : quartilesOf l = some (q1, q2, q3)) :
    st.quartilePieces r
        = [round_num (q1 - 3 * (q3 - q1)) r,
           round_num (q1 - 3 / 2 * (q3 - q1)) r,
           round_num q1 r, round_num q2 r, round_num q3 r,
           round_num (q3 - q1) r,
           round_num (q3 + 3 / 2 * (q3 - q1)) r,
           round_num (q3 + 3 * (q3 - q1)) r,
           round_num ((q3 - q2 - (q2 - q1)) / (q3 - q1)) r] ∧
      st.to_record r rc
        = (st.typ.display :: st.sumPiece r ::
            (st.minmaxPieces r ++ st.lenPieces ++ st.distPieces r ++
             [Nat.repr st.nullcount,
              round_num ((st.nullcount : ℚ) / ((rc.getD 1 : Nat) : ℚ)) r] ++
             st.medianPieces r ++ st.madPieces r))
          ++ st.quartilePieces r ++ st.modesCardPieces := by
  constructor
  · have hlof : mulAdd 3 (-(q3 - q1)) q1 = q1 - 3 * (q3 - q1) := by
      unfold mulAdd; ring
    have hlif : mulAdd (3 / 2) (-(q3 - q1)) q1 = q1 - 3 / 2 * (q3 - q1) := by
      unfold mulAdd; ring
    have huif : mulAdd (3 / 2) (q3 - q1) q3 = q3 + 3 / 2 * (q3 - q1) := by
      unfold mulAdd; ring
    have huof : mulAdd 3 (q3 - q1) q3 = q3 + 3 * (q3 - q1) := by
      unfold mulAdd; ring
    have hskew : mulAdd 2 (-q2) q3 + q1 = q3 - q2 - (q2 - q1) := by
      unfold mulAdd; ring
    unfold Stats.quartilePieces
    rw [h3]
    rcases h2 with h2 | h2 <;>
      rw [h2] <;>
      simp only [h4] <;>
      rw [hlof, hlif, huif, huof, hskew] <;>
      rfl
  · unfold Stats.to_record
    rw [if_neg (by simp [h1])]
    simp [List.append_assoc]

/-- C7 witness: the integer column `1, 2, 3, 4` has quartiles
`(1.5, 2.5, 3.5)` and its quartile block is the rounded fences, IQR and
skewness derived from them. -/
theorem quartile_derived_identities_witness :
    quartilesOf [(1 : ℚ), 2, 3, 4] = some (3 / 2, 5 / 2, 7 / 2) ∧
      (computeStats noDate false { wsDefault with quartiles := true }
          ["1".data, "2".data, "3".data, "4".data]).quartilePieces 4
        = ["-4.5000", "-1.5000", "1.5000", "2.5000", "3.5000", "2.0000",
           "6.5000", "9.5000", "0.0000"] := by
  refine ⟨by decide, ?_⟩
  have h := (quartile_derived_identities
      (computeStats noDate false { wsDefault with quartiles := true }
        ["1".data, "2".data, "3".data, "4".data])
      4 (some 4) [(1 : ℚ), 2, 3, 4] (3 / 2) (5 / 2) (7 / 2)
      rfl (Or.inl rfl) (by decide) (by decide)).1
  rw [h]
  decide

/-! ### C3 — integer sum exactness and the overflow marker -/

/-- Numeric value of the `i64` maximum. -/
lemma i64Max_eq : i64Max = 9223372036854775807 := rfl

/-- Numeric value of the `i64` minimum. -/
lemma i64Min_eq : i64Min = -9223372036854775808 := rfl

/-- Saturating addition is exact inside the `i64` range. -/
lemma satAdd_eq {a b : Int} (h1 : i64Min ≤ a + b) (h2 : a + b ≤ i64Max) :
    satAdd a b = a + b := by
  unfold satAdd
  rw [if_neg (by omega), if_neg (by omega)]

/-- Sum of absolute values of a list of integers. -/
def sumAbs (l : List Int) : Int := (l.map (fun v => |v|)).sum

/-- The absolute-value sum is nonnegative. -/
lemma sumAbs_nonneg (l : List Int) : 0 ≤ sumAbs l := by
  unfold sumAbs
  refine List.sum_nonneg ?_
  intro y hy
  obtain ⟨v, _, hv⟩ := List.mem_map.mp hy
  rw [← hv]
  exact abs_nonneg v

/-- When the total absolute sum fits in `i64`, the saturating fold is the
exact sum (no intermediate clamp can fire). -/
lemma satFold_exact_of_sumAbs (l : List Int) (h : sumAbs l ≤ i64Max) :
    satFold l = l.sum := by
  suffices haux : ∀ a : Int, |a| + sumAbs l ≤ i64Max → l.foldl satAdd a = a + l.sum by
    have := haux 0 (by simpa using h)
    simpa [satFold] using this
  induction l with
  | nil => intro a _; simp
  | cons x xs ih =>
    intro a ha
    have habs : (0 : Int) ≤ sumAbs xs := sumAbs_nonneg xs
    have hsplit : sumAbs (x :: xs) = |x| + sumAbs xs := by
      unfold sumAbs
      simp
    rw [hsplit] at ha
    have htri : |a + x| ≤ |a| + |x| := abs_add a x
    have hx : |a + x| + sumAbs xs ≤ i64Max := by omega
    have hb : |a + x| ≤ i64Max := by omega
    have hb2 := abs_le.mp hb
    have hsa : satAdd a x = a + x := by
      refine satAdd_eq ?_ hb2.2
      rw [i64Min_eq]
      rw [i64Max_eq] at hb2
      omega
    have ha0 : (0 : Int) ≤ |a| := abs_nonneg a
    have hx0 : (0 : Int) ≤ |x| := abs_nonneg x
    rw [List.foldl_cons, hsa, ih (by omega) (a + x) hx, List.sum_cons]
    ring

/-- The strict intermediate-bounds hypothesis makes the saturating fold
exact. -/
lemma satFold_exact_of_prefixes (l : List Int)
    (h : ∀ k : Nat, i64Min < satFold (l.take k) ∧ satFold (l.take k) < i64Max) :
    l.sum = satFold l := by
  induction l using List.reverseRecOn with
  | nil => rfl
  | append_singleton init x ih =>
    have hinit : init.sum = satFold init := by
      refine ih ?_
      intro k
      rcases le_or_lt k init.length with hk | hk
      · have := h k
        rwa [List.take_append_of_le_length hk] at this
      · have := h init.length
        rw [List.take_left] at this
        rwa [List.take_of_length_le (by omega)]
    have hfull := h (init ++ [x]).length
    rw [List.take_length] at hfull
    have hsf : satFold (init ++ [x]) = satAdd (satFold init) x := by
      unfold satFold
      rw [List.foldl_append]
      rfl
    rw [hsf] at hfull ⊢
    rw [← hinit] at hfull ⊢
    unfold satAdd at hfull ⊢
    split
    · exfalso
      rw [if_pos (by assumption)] at hfull
      omega
    · split
      · exfalso
        rw [if_neg (by assumption), if_pos (by assumption)] at hfull
        omega
      · simp

/-- Over nonnegative values the saturating fold is the exact sum clamped
from above at `i64::MAX`. -/
lemma satFold_nonneg (l : List Int) (h : ∀ v ∈ l, 0 ≤ v) :
    satFold l = min l.sum i64Max := by
  suffices haux : ∀ a : Int, 0 ≤ a → a ≤ i64Max →
      l.foldl satAdd a = min (a + l.sum) i64Max by
    have := haux 0 (le_refl 0) (by rw [i64Max_eq]; omega)
    simpa [satFold] using this
  induction l with
  | nil =>
    intro a h0 hm
    simp [min_eq_left, hm]
  | cons x xs ih =>
    intro a h0 hm
    have hx : 0 ≤ x := h x (by simp)
    have hxs : ∀ v ∈ xs, 0 ≤ v := fun v hv => h v (by simp [hv])
    have hsumxs : (0 : Int) ≤ xs.sum := List.sum_nonneg hxs
    have hMaxPos : (0 : Int) ≤ i64Max := by rw [i64Max_eq]; omega
    have hMinNeg : i64Min ≤ (0 : Int) := by rw [i64Min_eq]; omega
    have hsa : satAdd a x = min (a + x) i64Max := by
      unfold satAdd
      rcases le_or_lt (a + x) i64Max with hle | hlt
      · rw [if_neg (by omega), if_neg (by omega)]
        omega
      · rw [if_pos (by omega)]
        omega
    rw [List.foldl_cons, hsa,
      ih hxs _ (le_min (by omega) hMaxPos) (min_le_right _ _), List.sum_cons]
    rcases le_or_lt (a + x) i64Max with hle | hlt
    · rw [min_eq_left hle]
      ring_nf
    · rw [min_eq_right (by omega)]
      omega

/-- Sum of a nonpositive list is nonpositive. -/
lemma sum_nonpos_of_forall (l : List Int) (h : ∀ v ∈ l, v ≤ 0) : l.sum ≤ 0 := by
  induction l with
  | nil => simp
  | cons x xs ih =>
    rw [List.sum_cons]
    have h1 := h x (by simp)
    have h2 := ih (fun v hv => h v (by simp [hv]))
    omega

/-- Over nonpositive values the saturating fold is the exact sum clamped
from below at `i64::MIN`. -/
lemma satFold_nonpos (l : List Int) (h : ∀ v ∈ l, v ≤ 0) :
    satFold l = max l.sum i64Min := by
  suffices haux : ∀ a : Int, a ≤ 0 → i64Min ≤ a →
      l.foldl satAdd a = max (a + l.sum) i64Min by
    have := haux 0 (le_refl 0) (by rw [i64Min_eq]; omega)
    simpa [satFold] using this
  induction l with
  | nil =>
    intro a h0 hm
    simp [max_eq_left, hm]
  | cons x xs ih =>
    intro a h0 hm
    have hx : x ≤ 0 := h x (by simp)
    have hxs : ∀ v ∈ xs, v ≤ 0 := fun v hv => h v (by simp [hv])
    have hsumxs : xs.sum ≤ (0 : Int) := sum_nonpos_of_forall xs hxs
    have hMaxPos : (0 : Int) ≤ i64Max := by rw [i64Max_eq]; omega
    have hMinNeg : i64Min ≤ (0 : Int) := by rw [i64Min_eq]; omega
    have hsa : satAdd a x = max (a + x) i64Min := by
      unfold satAdd
      rcases le_or_lt i64Min (a + x) with hle | hlt
      · rw [if_neg (by omega), if_neg (by omega)]
        omega
      · rw [if_neg (by omega), if_pos (by omega)]
        omega
    rw [List.foldl_cons, hsa,
      ih hxs _ (max_le (by omega) hMinNeg) (le_max_right _ _), List.sum_cons]
    rcases le_or_lt i64Min (a + x) with hle | hlt
    · rw [max_eq_left hle]
      ring_nf
    · rw [max_eq_right (by omega)]
      omega

/-- Folding `TypedSum::add` at type `Integer` over integer-parsing samples
is the saturating fold of their values (the float side stays off). -/
lemma typedSum_fold_int (samples : List Bytes) (vs : List Int)
    (h : List.Forall₂ (fun s v => parseI64 s = some v) samples vs) :
    samples.foldl (fun a s => a.add TInteger s) ({} : TypedSum)
      = { integer := satFold vs, float := none } := by
  suffices haux : ∀ a : Int,
      samples.foldl (fun acc s => acc.add TInteger s)
          ({ integer := a, float := none } : TypedSum)
        = { integer := vs.foldl satAdd a, float := none } by
    exact haux 0
  induction h with
  | nil => intro a; rfl
  | cons hsv hrest ih =>
    intro a
    rename_i s v ss vv
    rw [List.foldl_cons, List.foldl_cons]
    have hstep : TypedSum.add ({ integer := a, float := none } : TypedSum) TInteger s
        = { integer := satAdd a v, float := none } := by
      unfold TypedSum.add
      rw [if_neg (parseI64_ne_nil hsv)]
      simp [hsv]
    rw [hstep, ih]

/-- C3 (amended): over an all-integer column summed at running type
`Integer`: (a) if the true sum and every intermediate saturating partial
sum stay strictly inside the `i64` range, the formatted sum is the exact
decimal sum; (b) if the samples are nonnegative and the true sum exceeds
`i64::MAX`, the formatted sum is the literal `OVERFLOW`; (c) symmetrically
`UNDERFLOW` below `i64::MIN` for nonpositive samples. -/
theorem integer_sum_exact_and_overflow (samples : List Bytes) (vs : List Int)
    (h : List.Forall₂ (fun s v => parseI64 s = some v) samples vs) :
    ((∀ k : Nat, i64Min < satFold (vs.take k) ∧ satFold (vs.take k) < i64Max) →
      (samples.foldl (fun a s => a.add TInteger s) ({} : TypedSum)).show TInteger
        = some (intToStr vs.sum)) ∧
      (((∀ v ∈ vs, 0 ≤ v) ∧ i64Max < vs.sum) →
        (samples.foldl (fun a s => a.add TInteger s) ({} : TypedSum)).show TInteger
          = some "OVERFLOW") ∧
      (((∀ v ∈ vs, v ≤ 0) ∧ vs.sum < i64Min) →
        (samples.foldl (fun a s => a.add TInteger s) ({} : TypedSum)).show TInteger
          = some "UNDERFLOW") := by
  rw [typedSum_fold_int samples vs h]
  refine ⟨?_, ?_, ?_⟩
  · intro hpre
    have hexact := satFold_exact_of_prefixes vs hpre
    have hfull := hpre vs.length
    rw [List.take_length] at hfull
    unfold TypedSum.show
    dsimp only
    rw [if_neg (by omega), if_neg (by omega), ← hexact]
  · rintro ⟨hpos, hover⟩
    have hsf : satFold vs = i64Max := by
      rw [satFold_nonneg vs hpos]
      omega
    unfold TypedSum.show
    rw [hsf, if_pos rfl]
  · rintro ⟨hneg, hunder⟩
    have hsf : satFold vs = i64Min := by
      rw [satFold_nonpos vs hneg]
      omega
    have hne : i64Min ≠ i64Max := by
      rw [i64Min_eq, i64Max_eq]
      omega
    unfold TypedSum.show
    rw [hsf, if_neg hne, if_pos rfl]

/-- C3 witness: `1 + 2` formats exactly as `3`; two huge nonnegative
values overflow to the `OVERFLOW` marker. -/
theorem integer_sum_exact_and_overflow_witness :
    (["1".data, "2".data].foldl (fun a s => a.add TInteger s)
        ({} : TypedSum)).show TInteger = some "3" ∧
      (["9223372036854775807".data, "1".data].foldl (fun a s => a.add TInteger s)
        ({} : TypedSum)).show TInteger = some "OVERFLOW" := by
  constructor
  · have h := (integer_sum_exact_and_overflow ["1".data, "2".data] [1, 2]
      (List.Forall₂.cons (by decide) (List.Forall₂.cons (by decide) List.Forall₂.nil))).1
    rw [h ?hp]
    case hp =>
      intro k
      match k with
      | 0 => decide
      | 1 => decide
      | (m + 2) =>
        rw [List.take_of_length_le (by simp)]
        decide
    rfl
  · have h := (integer_sum_exact_and_overflow ["9223372036854775807".data, "1".data]
      [9223372036854775807, 1]
      (List.Forall₂.cons (by decide) (List.Forall₂.cons (by decide) List.Forall₂.nil))).2.1
    rw [h ⟨by decide, by decide⟩]

/-- C3 counterexample: the column `i64::MAX, 2, -1` has true sum
`i64::MAX + 1 > i64::MAX`, yet the formatted sum field is the plain
number `9223372036854775806`, not `OVERFLOW` (the run saturated at `MAX`
and then moved away from the sentinel). -/
theorem sum_overflow_marker_missed :
    ((computeStats noDate false wsDefault
        ["9223372036854775807".data, "2".data, "-1".data]).to_record 4 (some 3)).get? 1
        = some "9223372036854775806" ∧
      i64Max < (9223372036854775807 + 2 + -1 : Int) ∧
      ("9223372036854775806" : String) ≠ "OVERFLOW" := by
  refine ⟨by decide, by decide, by decide⟩

/-! ### C2 — partition insensitivity of the chunked merge -/

/-- C2 counterexample: splitting the rows `i64::MAX, 2, -1` into the
chunks `[i64::MAX]` and `[2, -1]` and merging the per-chunk bundles
formats the sum as `OVERFLOW`, while the sequential computation over the
whole row set formats `9223372036854775806` — saturating addition is not
associative, so the formatted records differ. -/
theorem chunked_merge_differs_from_sequential :
    (Stats.merge (computeStats noDate false wsDefault ["9223372036854775807".data])
          (computeStats noDate false wsDefault ["2".data, "-1".data])).map
        (fun m => m.to_record 4 (some 3))
      ≠ some ((computeStats noDate false wsDefault
          ["9223372036854775807".data, "2".data, "-1".data]).to_record 4 (some 3)) ∧
      (Stats.merge (computeStats noDate false wsDefault ["9223372036854775807".data])
            (computeStats noDate false wsDefault ["2".data, "-1".data])).map
          (fun m => (m.to_record 4 (some 3)).get? 1)
        = some (some "OVERFLOW") ∧
      ((computeStats noDate false wsDefault
          ["9223372036854775807".data, "2".data, "-1".data]).to_record 4 (some 3)).get? 1
        = some "9223372036854775806" := by
  refine ⟨by decide, by decide, by decide⟩

/-- Splitting at an absent separator returns the whole string. -/
lemma splitAtChar_of_not_mem {sep : Char} {l : Bytes} (h : sep ∉ l) :
    splitAtChar sep l = (l, none) := by
  induction l with
  | nil => rfl
  | cons c r ih =>
    unfold splitAtChar
    have hc : ¬c = sep := fun hc => h (by simp [hc])
    rw [if_neg hc, ih (fun hr => h (by simp [hr]))]

/-- What a successful digit parse tells about the string. -/
lemma parseDigits_some {l : Bytes} {n : Nat} (h : parseDigits l = some n) :
    l ≠ [] ∧ l.all Char.isDigit = true ∧
      l.foldl (fun a c => 10 * a + digitVal c) 0 = n := by
  cases l with
  | nil => exact absurd h (by simp [parseDigits])
  | cons c r =>
    have hrw : parseDigits (c :: r)
        = if (c :: r).all Char.isDigit
          then some ((c :: r).foldl (fun a c => 10 * a + digitVal c) 0) else none := rfl
    rw [hrw] at h
    split at h
    · exact ⟨by simp, by assumption, by injection h⟩
    · exact absurd h (by simp)

/-- Digit strings contain no exponent or decimal-point characters. -/
lemma not_mem_of_all_digits {l : Bytes} (h : l.all Char.isDigit = true) {c : Char}
    (hc : c.isDigit = false) : c ∉ l := by
  intro hmem
  have := List.all_eq_true.mp h c hmem
  rw [hc] at this
  exact absurd this (by simp)

/-- A sample that parses as an `i64` parses as the same value in the
(modelled) `f64` grammar. -/
lemma parseF64_of_parseI64 {s : Bytes} {v : Int} (h : parseI64 s = some v) :
    parseF64 s = some (v : ℚ) := by
  unfold parseI64 at h
  rcases hsp : splitSign s with ⟨sign, rest⟩
  rw [hsp] at h
  dsimp only at h
  rcases hpd : parseDigits rest with _ | n
  · rw [hpd] at h
    exact absurd h (by simp)
  · rw [hpd] at h
    dsimp only at h
    split at h
    · injection h with hv
      obtain ⟨hne, hdig, _⟩ := parseDigits_some hpd
      have hnoe : 'e' ∉ rest := not_mem_of_all_digits hdig (by decide)
      have hnoE : 'E' ∉ rest := not_mem_of_all_digits hdig (by decide)
      have hnod : '.' ∉ rest := not_mem_of_all_digits hdig (by decide)
      unfold parseF64 splitExp
      rw [hsp]
      dsimp only
      rw [splitAtChar_of_not_mem hnoe]
      dsimp only
      rw [splitAtChar_of_not_mem hnoE]
      dsimp only
      rw [splitAtChar_of_not_mem hnod]
      dsimp only
      rw [hpd]
      dsimp only
      have hcast : ((sign * (n : Int) : Int) : ℚ)
          = (sign : ℚ) * (n : ℚ) * (10 : ℚ) ^ (0 : ℤ) := by
        rw [zpow_zero]
        push_cast
        ring
      rw [← hv, hcast]
    · exact absurd h (by simp)

/-- Transitivity and negative transitivity of a boolean strict order:
exactly what associativity of the running min/max updates needs. -/
def LtbLaws (ltb : α → α → Bool) : Prop :=
  (∀ a b c, ltb a b = true → ltb b c = true → ltb a c = true) ∧
  (∀ a b c, ltb a b = false → ltb b c = false → ltb a c = false)

/-- The running-minimum update is associative for a lawful order. -/
lemma minB_assoc (ltb : α → α → Bool) (hl : LtbLaws ltb) (a m x : α) :
    minB ltb a (minB ltb m x) = minB ltb (minB ltb a m) x := by
  obtain ⟨ht, hn⟩ := hl
  unfold minB
  cases hxm : ltb x m
  · cases hma : ltb m a
    · simp [hxm, hma, hn x m a hxm hma]
    · simp [hxm, hma]
  · cases hma : ltb m a
    · simp [hxm, hma]
    · simp [hxm, hma, ht x m a hxm hma]

/-- The running maximum is the running minimum of the flipped order. -/
lemma maxB_eq_minB_flip (ltb : α → α → Bool) :
    maxB ltb = minB (fun a b => ltb b a) := rfl

/-- Flipping a lawful order keeps it lawful. -/
lemma ltbLaws_flip (ltb : α → α → Bool) (hl : LtbLaws ltb) :
    LtbLaws (fun a b => ltb b a) :=
  ⟨fun a b c h1 h2 => hl.1 c b a h2 h1, fun a b c h1 h2 => hl.2 c b a h2 h1⟩

/-- The running-maximum update is associative for a lawful order. -/
lemma maxB_assoc (ltb : α → α → Bool) (hl : LtbLaws ltb) (a m x : α) :
    maxB ltb a (maxB ltb m x) = maxB ltb (maxB ltb a m) x := by
  rw [maxB_eq_minB_flip]
  exact minB_assoc _ (ltbLaws_flip ltb hl) a m x

/-- Merging with a fresh `MinMax` is the identity. -/
lemma minMax_merge_empty (ltb : α → α → Bool) (m : MinMax α) :
    m.merge ltb {} = m := by
  unfold MinMax.merge optComb
  rcases m with ⟨mn, mx⟩
  rcases mn with _ | a <;> rcases mx with _ | b <;> rfl

/-- Merging commutes with adding one sample on the right. -/
lemma minMax_merge_add (ltb : α → α → Bool) (hl : LtbLaws ltb) (m1 m2 : MinMax α) (x : α) :
    m1.merge ltb (m2.add ltb x) = (m1.merge ltb m2).add ltb x := by
  unfold MinMax.merge MinMax.add optComb
  rcases h1min : m1.min with _ | a <;> rcases h2min : m2.min with _ | m <;>
    rcases h1max : m1.max with _ | a2 <;> rcases h2max : m2.max with _ | m2v <;>
      simp [minB_assoc ltb hl, maxB_assoc ltb hl]

/-- The boolean orders used by `TypedMinMax` are lawful. -/
lemma ltNat_laws : LtbLaws ltNat := by
  constructor
  · intro a b c h1 h2
    simp only [ltNat, decide_eq_true_eq] at *
    omega
  · intro a b c h1 h2
    simp only [ltNat, decide_eq_false_iff_not] at *
    omega

/-- The integer order is lawful. -/
lemma ltInt_laws : LtbLaws ltInt := by
  constructor
  · intro a b c h1 h2
    simp only [ltInt, decide_eq_true_eq] at *
    omega
  · intro a b c h1 h2
    simp only [ltInt, decide_eq_false_iff_not] at *
    omega

/-- The rational order is lawful. -/
lemma ltQ_laws : LtbLaws ltQ := by
  constructor
  · intro a b c h1 h2
    simp only [ltQ, decide_eq_true_eq] at *
    exact lt_trans h1 h2
  · intro a b c h1 h2
    simp only [ltQ, decide_eq_false_iff_not] at *
    intro hac
    exact h1 (lt_of_lt_of_le hac (le_of_not_lt h2))

/-- Lexicographic byte order is transitive. -/
lemma ltBytes_trans : ∀ a b c : Bytes,
    ltBytes a b = true → ltBytes b c = true → ltBytes a c = true := by
  intro a
  induction a with
  | nil =>
    intro b c h1 h2
    cases b with
    | nil => simp [ltBytes] at h1
    | cons y ys =>
      cases c with
      | nil => simp [ltBytes] at h2
      | cons z zs => simp [ltBytes]
  | cons x xs ih =>
    intro b c h1 h2
    cases b with
    | nil => simp [ltBytes] at h1
    | cons y ys =>
      cases c with
      | nil => simp [ltBytes] at h2
      | cons z zs =>
        unfold ltBytes at h1 h2 ⊢
        by_cases hxy : x < y
        · rw [if_pos hxy] at h1
          by_cases hyz : y < z
          · rw [if_pos hyz] at h2
            rw [if_pos (lt_trans hxy hyz)]
          · rw [if_neg hyz] at h2
            by_cases hzy : z < y
            · rw [if_pos hzy] at h2
              exact absurd h2 (by simp)
            · have heq : y = z := le_antisymm (le_of_not_lt hzy) (le_of_not_lt hyz)
              subst heq
              rw [if_pos hxy]
        · rw [if_neg hxy] at h1
          by_cases hyx : y < x
          · rw [if_pos hyx] at h1
            exact absurd h1 (by simp)
          · rw [if_neg hyx] at h1
            have heq : x = y := le_antisymm (le_of_not_lt hyx) (le_of_not_lt hxy)
            subst heq
            by_cases hyz : x < z
            · rw [if_pos hyz] at h2 ⊢
            · rw [if_neg hyz] at h2 ⊢
              by_cases hzy : z < x
              · rw [if_pos hzy] at h2
                exact absurd h2 (by simp)
              · rw [if_neg hzy] at h2 ⊢
                exact ih ys zs h1 h2

/-- Lexicographic byte order is negatively transitive. -/
lemma ltBytes_negtrans : ∀ a b c : Bytes,
    ltBytes a b = false → ltBytes b c = false → ltBytes a c = false := by
  intro a
  induction a with
  | nil =>
    intro b c h1 h2
    cases b with
    | cons y ys => simp [ltBytes] at h1
    | nil =>
      cases c with
      | nil => rfl
      | cons z zs => simp [ltBytes] at h2
  | cons x xs ih =>
    intro b c h1 h2
    cases c with
    | nil => rfl
    | cons z zs =>
      cases b with
      | nil => simp [ltBytes] at h2
      | cons y ys =>
        unfold ltBytes at h1 h2 ⊢
        by_cases hxy : x < y
        · rw [if_pos hxy] at h1
          exact absurd h1 (by simp)
        · rw [if_neg hxy] at h1
          by_cases hyz : y < z
          · rw [if_pos hyz] at h2
            exact absurd h2 (by simp)
          · rw [if_neg hyz] at h2
            by_cases hyx : y < x
            · by_cases hzy : z < y
              · rw [if_neg (by intro hc; exact absurd (lt_trans hc hzy) hxy),
                  if_pos (lt_trans hzy hyx)]
              · have heq : y = z := le_antisymm (le_of_not_lt hzy) (le_of_not_lt hyz)
                subst heq
                rw [if_neg (by intro hc; exact absurd hc hxy), if_pos hyx]
            · have heq : x = y := le_antisymm (le_of_not_lt hyx) (le_of_not_lt hxy)
              subst heq
              rw [if_neg (lt_irrefl x)] at h1
              rw [if_neg hyz]
              by_cases hzy : z < x
              · rw [if_pos hzy]
              · rw [if_neg hzy] at h2 ⊢
                exact ih ys zs h1 h2

/-- The byte order is lawful. -/
lemma ltBytes_laws : LtbLaws ltBytes := ⟨ltBytes_trans, ltBytes_negtrans⟩

/-- Merging `TypedMinMax` accumulators commutes with adding one sample on
the right. -/
lemma typedMinMax_merge_add (m1 m2 : TypedMinMax) (t : FieldType) (s : Bytes) :
    m1.merge (m2.add t s) = (m1.merge m2).add t s := by
  have hn := minMax_merge_add ltNat ltNat_laws
  have hb := minMax_merge_add ltBytes ltBytes_laws
  have hi := minMax_merge_add ltInt ltInt_laws
  have hq := minMax_merge_add ltQ ltQ_laws
  unfold TypedMinMax.merge TypedMinMax.add
  by_cases hemp : s = [] <;> cases t <;> simp [hemp, hn, hb, hi, hq]

/-- Merging `TypedMinMax` accumulators commutes with folding a second
chunk of samples. -/
lemma typedMinMax_merge_fold (ts : List (FieldType × Bytes)) :
    ∀ m1 m0 : TypedMinMax,
      m1.merge (ts.foldl (fun m p => m.add p.1 p.2) m0)
        = ts.foldl (fun m p => m.add p.1 p.2) (m1.merge m0) := by
  induction ts with
  | nil => intro m1 m0; rfl
  | cons p ps ih =>
    intro m1 m0
    rw [List.foldl_cons, List.foldl_cons, ih, typedMinMax_merge_add]

/-- Streaming state reached by adding every sample of a list. -/
def osOf (l : List ℚ) : OnlineStats := l.foldl OnlineStats.add {}

/-- Sum of squares of a numeric list. -/
def sumSq (l : List ℚ) : ℚ := (l.map (fun x => x ^ 2)).sum

/-- Sum of squares splits over append. -/
lemma sumSq_append (A B : List ℚ) : sumSq (A ++ B) = sumSq A + sumSq B := by
  unfold sumSq
  simp

/-- The Welford state after a list of samples is determined by the list's
length, sum and sum of squares (population mean and variance). -/
lemma osOf_char (l : List ℚ) :
    osOf l
      = { size := l.length,
          mean := l.sum / (l.length : ℚ),
          q := sumSq l / (l.length : ℚ) - (l.sum / (l.length : ℚ)) ^ 2 } := by
  induction l using List.reverseRecOn with
  | nil => simp [osOf, sumSq, OnlineStats.mk.injEq]
  | append_singleton init x ih =>
    have hfold : osOf (init ++ [x]) = (osOf init).add x := by
      unfold osOf
      rw [List.foldl_append]
      rfl
    rw [hfold, ih]
    rcases eq_or_ne init [] with hnil | hne
    · subst hnil
      unfold OnlineStats.add
      simp [sumSq, OnlineStats.mk.injEq]
    · have hn : ((init.length : ℚ)) ≠ 0 := by
        simp [List.length_eq_zero, hne]
      have hn1 : ((init.length : ℚ) + 1) ≠ 0 := by positivity
      unfold OnlineStats.add
      simp only [List.length_append, List.sum_append, sumSq_append, List.length_singleton,
        List.sum_cons, List.sum_nil, OnlineStats.mk.injEq]
      refine ⟨trivial, ?_, ?_⟩
      · push_cast
        field_simp
        ring
      · have hsq : sumSq [x] = x ^ 2 := by simp [sumSq]
        rw [hsq]
        push_cast
        field_simp
        ring

/-- The parallel variance-combination formula is exact: merging the
streaming states of two chunks gives the streaming state of their
concatenation. -/
lemma osOf_merge (A B : List ℚ) : (osOf A).merge (osOf B) = osOf (A ++ B) := by
  rw [osOf_char A, osOf_char B, osOf_char (A ++ B)]
  rcases eq_or_ne A [] with hA | hA
  · subst hA
    rcases eq_or_ne B [] with hB | hB
    · subst hB
      unfold OnlineStats.merge
      simp [sumSq]
    · have hnB : ((B.length : ℚ)) ≠ 0 := by
        simp [List.length_eq_zero, hB]
      unfold OnlineStats.merge
      simp only [List.length_nil, List.sum_nil, List.nil_append, OnlineStats.mk.injEq,
        Nat.cast_zero, sumSq]
      refine ⟨by omega, ?_, ?_⟩
      · field_simp
      · field_simp
        ring
  · rcases eq_or_ne B [] with hB | hB
    · subst hB
      have hnA : ((A.length : ℚ)) ≠ 0 := by
        simp [List.length_eq_zero, hA]
      unfold OnlineStats.merge
      simp only [List.length_nil, List.sum_nil, List.append_nil, OnlineStats.mk.injEq,
        Nat.cast_zero, sumSq]
      refine ⟨by omega, ?_, ?_⟩
      · field_simp
      · field_simp
        ring
    · have hnA : ((A.length : ℚ)) ≠ 0 := by
        simp [List.length_eq_zero, hA]
      have hnB : ((B.length : ℚ)) ≠ 0 := by
        simp [List.length_eq_zero, hB]
      have hnAB : ((A.length : ℚ) + (B.length : ℚ)) ≠ 0 := by positivity
      unfold OnlineStats.merge
      simp only [List.length_append, List.sum_append, sumSq_append, OnlineStats.mk.injEq]
      refine ⟨trivial, ?_, ?_⟩
      · push_cast
        field_simp
      · push_cast
        field_simp
        ring

/-- A sample that classifies as `Integer`: it parses as `v` and does not
hit the leading-zero degradation. -/
def IntSample (s : Bytes) (v : Int) : Prop :=
  parseI64 s = some v ∧ ¬(s.head? = some '0' ∧ v ≠ 0)

/-- Canonical bundle state of a nonempty all-integer column. -/
def intStats (ws : WhichStats) (samples : List Bytes) (us : List Int) : Stats :=
  { typ := TInteger
    sum := if ws.sum then some { integer := satFold us, float := none } else none
    minmax := if ws.range then
        some ((samples.map (fun s => (TInteger, s))).foldl
          (fun m p => m.add p.1 p.2) {})
      else none
    online := if ws.dist then some (osOf (us.map (fun v : Int => (v : ℚ)))) else none
    nullcount := 0
    modes := if ws.mode ∨ ws.cardinality then some samples else none
    median := if ws.quartiles then none
      else if ws.median then some (us.map (fun v : Int => (v : ℚ))) else none
    mad := none
    quartiles := if ws.quartiles then some (us.map (fun v : Int => (v : ℚ))) else none
    which := ws }

/-- An integer sample keeps an `Integer` (or fresh `Null`) column at
`Integer`. -/
lemma from_sample_int (dp : DateParser) (i : Bool) {s : Bytes} {v : Int}
    (hsv : IntSample s v) (cur : FieldType) (hc : cur = TNull ∨ cur = TInteger) :
    FieldType.from_sample dp i s cur = (TInteger, none) := by
  obtain ⟨hp, hz⟩ := hsv
  have hs := parseI64_ne_nil hp
  unfold FieldType.from_sample
  rw [if_neg hs]
  rcases hc with hc | hc <;> subst hc <;> simp [hp, hz]

/-- `Option.map` pushes through an `if`. -/
lemma option_map_ite (f : α → β) {c : Prop} [inst : Decidable c] (x y : Option α) :
    Option.map f (if c then x else y) = if c then Option.map f x else Option.map f y := by
  split <;> rfl

/-- Adding one more integer sample to the canonical state advances it by
one row. -/
lemma intStats_add (dp : DateParser) (i : Bool) (ws : WhichStats)
    (ht : ws.typesonly = false) (samples : List Bytes) (us : List Int)
    {s : Bytes} {v : Int} (hsv : IntSample s v) :
    (intStats ws samples us).add dp s i = intStats ws (samples ++ [s]) (us ++ [v]) := by
  have hfs := from_sample_int dp i hsv TInteger (Or.inr rfl)
  have hf64 := parseF64_of_parseI64 hsv.1
  have hs := parseI64_ne_nil hsv.1
  have hsum : TypedSum.add { integer := satFold us, float := none } TInteger s
      = { integer := satFold (us ++ [v]), float := none } := by
    unfold TypedSum.add
    rw [if_neg hs]
    simp only [hsv.1]
    unfold satFold
    rw [List.foldl_append]
    rfl
  have hmm : (((samples.map (fun s => (TInteger, s))).foldl
        (fun m p => m.add p.1 p.2) ({} : TypedMinMax)).add TInteger s)
      = ((samples ++ [s]).map (fun s => (TInteger, s))).foldl
          (fun m p => m.add p.1 p.2) ({} : TypedMinMax) := by
    rw [List.map_append, List.foldl_append]
    rfl
  have hos : (osOf (us.map (fun v : Int => (v : ℚ)))).add ((v : ℚ))
      = osOf ((us ++ [v]).map (fun v : Int => (v : ℚ))) := by
    rw [List.map_append]
    unfold osOf
    rw [List.foldl_append]
    rfl
  have hq : us.map (fun v : Int => (v : ℚ)) ++ [(v : ℚ)]
      = (us ++ [v]).map (fun v : Int => (v : ℚ)) := by
    simp
  unfold Stats.add intStats
  dsimp only
  rw [hfs]
  dsimp only
  rw [if_neg (by simp [ht])]
  rw [show TInteger.merge TInteger = TInteger from rfl]
  dsimp only
  rw [if_neg (show ¬(TInteger = TNull) by decide)]
  simp only [hf64, Option.getD_some, pushQ, option_map_ite, Option.map_some', Option.map_none',
    hsum, hmm, hos, hq, show (TInteger = TNull) = False by simp, if_false]

/-- The first integer sample takes the fresh bundle to the canonical
state of a one-row column. -/
lemma newStats_add_int (dp : DateParser) (i : Bool) (ws : WhichStats)
    (ht : ws.typesonly = false) (hmad : ws.mad = false)
    {s : Bytes} {v : Int} (hsv : IntSample s v) :
    (Stats.new ws).add dp s i = intStats ws [s] [v] := by
  have hfs := from_sample_int dp i hsv TNull (Or.inl rfl)
  have hf64 := parseF64_of_parseI64 hsv.1
  have hs := parseI64_ne_nil hsv.1
  have hsum : TypedSum.add ({} : TypedSum) TInteger s
      = { integer := satFold [v], float := none } := by
    unfold TypedSum.add
    rw [if_neg hs]
    simp only [hsv.1]
    rfl
  unfold Stats.add Stats.new intStats
  dsimp only
  rw [show (default : FieldType) = TNull from rfl, hfs]
  dsimp only
  rw [if_neg (by simp [ht])]
  rw [show TNull.merge TInteger = TInteger from rfl]
  dsimp only
  rw [if_neg (show ¬(TInteger = TNull) by decide)]
  simp only [hf64, Option.getD_some, pushQ, option_map_ite, Option.map_some', Option.map_none',
    hsum, hmad, show (TInteger = TNull) = False by simp, if_false]
  rfl

/-- Folding further integer samples keeps the canonical state in sync. -/
lemma foldAdd_intStats (dp : DateParser) (i : Bool) (ws : WhichStats)
    (ht : ws.typesonly = false) {rest : List Bytes} {vs : List Int}
    (h : List.Forall₂ IntSample rest vs) :
    ∀ (p : List Bytes) (us : List Int),
      rest.foldl (fun st s => st.add dp s i) (intStats ws p us)
        = intStats ws (p ++ rest) (us ++ vs) := by
  induction h with
  | nil => intro p us; simp
  | cons hsv hrest ih =>
    intro p us
    rename_i s v ss vv
    rw [List.foldl_cons, intStats_add dp i ws ht p us hsv, ih (p ++ [s]) (us ++ [v])]
    simp

/-- A nonempty all-integer column computes exactly the canonical state. -/
lemma computeStats_int (dp : DateParser) (i : Bool) (ws : WhichStats)
    (ht : ws.typesonly = false) (hmad : ws.mad = false)
    {samples : List Bytes} {us : List Int}
    (h : List.Forall₂ IntSample samples us) (hne : samples ≠ []) :
    computeStats dp i ws samples = intStats ws samples us := by
  cases h with
  | nil => exact absurd rfl hne
  | cons hsv hrest =>
    rename_i s v ss vv
    unfold computeStats
    rw [List.foldl_cons, newStats_add_int dp i ws ht hmad hsv,
      foldAdd_intStats dp i ws ht hrest [s] [v]]
    simp

/-- Absolute sums split over append. -/
lemma sumAbs_append (A B : List Int) : sumAbs (A ++ B) = sumAbs A + sumAbs B := by
  unfold sumAbs
  simp

/-- A sum is bounded by the sum of absolute values. -/
lemma abs_sum_le_sumAbs (l : List Int) : |l.sum| ≤ sumAbs l := by
  induction l with
  | nil => simp [sumAbs]
  | cons x xs ih =>
    have hsplit : sumAbs (x :: xs) = |x| + sumAbs xs := by
      unfold sumAbs
      simp
    rw [List.sum_cons, hsplit]
    calc |x + xs.sum| ≤ |x| + |xs.sum| := abs_add x xs.sum
      _ ≤ |x| + sumAbs xs := by omega

/-- Merging `TypedMinMax` with a fresh accumulator is the identity. -/
lemma typedMinMax_merge_empty (m : TypedMinMax) : m.merge {} = m := by
  unfold TypedMinMax.merge
  rcases m with ⟨s, l, i, f, d⟩
  simp [minMax_merge_empty]

/-- Merging the canonical states of two chunks gives the canonical state
of their concatenation, provided the total absolute sum fits in `i64`. -/
lemma intStats_merge (ws : WhichStats) (xs ys : List Bytes) (us vs : List Int)
    (hbound : sumAbs (us ++ vs) ≤ i64Max) :
    Stats.merge (intStats ws xs us) (intStats ws ys vs)
      = some (intStats ws (xs ++ ys) (us ++ vs)) := by
  have habs1 : (0 : Int) ≤ sumAbs us := sumAbs_nonneg us
  have habs2 : (0 : Int) ≤ sumAbs vs := sumAbs_nonneg vs
  have hb := sumAbs_append us vs
  have hsum : satAdd (satFold us) (satFold vs) = satFold (us ++ vs) := by
    rw [satFold_exact_of_sumAbs us (by omega), satFold_exact_of_sumAbs vs (by omega),
      satFold_exact_of_sumAbs (us ++ vs) hbound, List.sum_append]
    have habs3 := abs_sum_le_sumAbs (us ++ vs)
    rw [List.sum_append] at habs3
    have habs4 := abs_le.mp (le_trans habs3 hbound)
    refine satAdd_eq ?_ habs4.2
    rw [i64Min_eq]
    rw [i64Max_eq] at habs4
    omega
  have hmm : ((xs.map (fun s => (TInteger, s))).foldl
        (fun m p => m.add p.1 p.2) ({} : TypedMinMax)).merge
          ((ys.map (fun s => (TInteger, s))).foldl
            (fun m p => m.add p.1 p.2) ({} : TypedMinMax))
      = ((xs ++ ys).map (fun s => (TInteger, s))).foldl
          (fun m p => m.add p.1 p.2) ({} : TypedMinMax) := by
    rw [typedMinMax_merge_fold, typedMinMax_merge_empty, List.map_append, List.foldl_append]
  have hos := osOf_merge (us.map (fun v : Int => (v : ℚ))) (vs.map (fun v : Int => (v : ℚ)))
  rw [← List.map_append] at hos
  unfold Stats.merge WhichStats.merge intStats
  dsimp only
  rw [if_pos rfl]
  simp only [Option.some.injEq]
  by_cases h1 : ws.sum <;> by_cases h2 : ws.range <;> by_cases h3 : ws.dist <;>
    by_cases h4 : ws.mode ∨ ws.cardinality <;> by_cases h5 : ws.quartiles <;>
      by_cases h6 : ws.median <;>
        simp [h1, h2, h3, h4, h5, h6, optComb, TypedSum.merge, hsum, hmm, hos,
          List.map_append, show TInteger.merge TInteger = TInteger from rfl]

/-- C2 (amended): for a nonempty all-integer column (every sample a valid
`i64` without the leading-zero degradation), any non-types-only selection
without MAD, and a total absolute sum within the `i64` range (so no
saturating addition clamps anywhere), merging the per-chunk bundles of any
two-chunk split equals the sequential bundle over the whole row set — and
therefore the formatted output records are identical. -/
theorem chunked_merge_partition_insensitive (dp : DateParser) (i : Bool) (ws : WhichStats)
    (ht : ws.typesonly = false) (hmad : ws.mad = false)
    (xs ys : List Bytes) (us vs : List Int)
    (hx : List.Forall₂ IntSample xs us) (hy : List.Forall₂ IntSample ys vs)
    (hxne : xs ≠ []) (hyne : ys ≠ [])
    (hbound : sumAbs (us ++ vs) ≤ i64Max) :
    Stats.merge (computeStats dp i ws xs) (computeStats dp i ws ys)
        = some (computeStats dp i ws (xs ++ ys)) ∧
      ∀ (r : Nat) (rc : Option Nat),
        (Stats.merge (computeStats dp i ws xs) (computeStats dp i ws ys)).map
            (fun m => m.to_record r rc)
          = some ((computeStats dp i ws (xs ++ ys)).to_record r rc) := by
  have h1 := computeStats_int dp i ws ht hmad hx hxne
  have h2 := computeStats_int dp i ws ht hmad hy hyne
  have h3 := computeStats_int dp i ws ht hmad (List.rel_append hx hy)
      (fun hc => hxne (List.append_eq_nil.mp hc).1)
  have hmain : Stats.merge (computeStats dp i ws xs) (computeStats dp i ws ys)
      = some (computeStats dp i ws (xs ++ ys)) := by
    rw [h1, h2, h3]
    exact intStats_merge ws xs ys us vs hbound
  exact ⟨hmain, fun r rc => by rw [hmain]; rfl⟩

/-- C2 witness: the chunks `[1]` and `[2, 3]` merge to exactly the
sequential bundle over `1, 2, 3`. -/
theorem chunked_merge_partition_insensitive_witness :
    Stats.merge (computeStats noDate false wsDefault ["1".data])
        (computeStats noDate false wsDefault ["2".data, "3".data])
      = some (computeStats noDate false wsDefault ["1".data, "2".data, "3".data]) :=
  (chunked_merge_partition_insensitive noDate false wsDefault rfl rfl
    ["1".data] ["2".data, "3".data] [1] [2, 3]
    (List.Forall₂.cons ⟨by decide, by decide⟩ List.Forall₂.nil)
    (List.Forall₂.cons ⟨by decide, by decide⟩
      (List.Forall₂.cons ⟨by decide, by decide⟩ List.Forall₂.nil))
    (by decide) (by decide) (by decide)).1

end Qsv
